import Mathlib

/-!
# The range-based UTF-8 validator of `range-sse-asciipath.c`

A shallow embedding of `check_utf8_bytes`, `check_utf8` and
`utf8_range_asciipath`, with the SSE intrinsics they use modelled lane by lane.

* A 128-bit register is a function from the 16 lane numbers to byte values,
  lane 0 being the byte at the lowest address.
* The buffer is a list of byte values and its length is the length of the list;
  `utf8_naive`, which the file only declares, is a parameter that receives the
  bytes of the range it is called on.
* `utf8_range_asciipath` reads `token[3]`, `token[2]`, `token[1]` through a
  `const unsigned *` that points at the 4-byte object `token4`.  Those reads
  address the 4-byte words 12, 8 and 4 bytes past the start of `token4`: they
  lie outside the object, and their values are no function of the buffer.  The
  embedding takes them, and the bytes that adjoin the buffer in memory, from an
  explicit `Env` argument.  The statements that hold whatever those words are
  are proved for every `Env`; the two about buffers shorter than one chunk need
  the words to be at most 0xBF and say so.
* `utf8_range_asciipath` calls `check_utf8_bytes` on every chunk; `check_utf8`,
  which the file defines and does not call, is embedded on its own, and
  `utf8_range_asciipath_check_utf8` is the function with that call put in.
* The `printf`/`print128` calls and the call counter `cossin` have no effect on
  the returned value and are left out.
-/

namespace Utf8

/-! ## Vector primitives -/

/-- A 128-bit register as 16 byte lanes. -/
abbrev V128 := Fin 16 → Nat

/-- Value of a byte lane read as `int8_t`. -/
def toInt8 (x : Nat) : Int :=
  if x % 256 < 128 then ((x % 256 : Nat) : Int) else ((x % 256 : Nat) : Int) - 256

def _mm_setzero_si128 : V128 := fun _ => 0

def _mm_set1_epi8 (c : Nat) : V128 := fun _ => c % 256

/-- Load of a 16-entry constant table. -/
def _mm_lddqu_si128 (tbl : List Nat) : V128 := fun i => tbl.getD i.val 0

/-- Load of the 16 bytes of the buffer that start at offset `off`. -/
def _mm_loadu_si128 (buf : List Nat) (off : Nat) : V128 := fun i => buf.getD (off + i.val) 0

/-- Logical right shift of each of the eight 16-bit lanes. -/
def _mm_srli_epi16 (a : V128) (n : Nat) : V128 := fun i =>
  let lo := a ⟨2 * (i.val / 2), by omega⟩
  let hi := a ⟨2 * (i.val / 2) + 1, by omega⟩
  let w := ((lo + 256 * hi) >>> n) % 65536
  if i.val % 2 = 0 then w % 256 else w / 256

def _mm_and_si128 (a b : V128) : V128 := fun i => a i &&& b i

def _mm_or_si128 (a b : V128) : V128 := fun i => a i ||| b i

/-- Byte shuffle: a lane whose index byte has bit 7 set becomes 0, any other
lane takes the table entry selected by the low four bits of the index. -/
def _mm_shuffle_epi8 (a b : V128) : V128 := fun i =>
  if b i / 128 % 2 = 1 then 0 else a ⟨b i % 16, Nat.mod_lt _ (by decide)⟩

/-- Concatenate `a` (high) and `b` (low), shift right by `n` bytes, keep the low
16 bytes. -/
def _mm_alignr_epi8 (a b : V128) (n : Nat) : V128 := fun i =>
  if h : i.val + n < 16 then b ⟨i.val + n, h⟩
  else if h2 : i.val + n - 16 < 16 then a ⟨i.val + n - 16, h2⟩
  else 0

/-- Unsigned saturating subtraction. -/
def _mm_subs_epu8 (a b : V128) : V128 := fun i => a i - b i

/-- Unsigned saturating addition. -/
def _mm_adds_epu8 (a b : V128) : V128 := fun i => min (a i + b i) 255

/-- Wrapping subtraction. -/
def _mm_sub_epi8 (a b : V128) : V128 := fun i => (a i + (256 - b i % 256)) % 256

/-- Wrapping addition. -/
def _mm_add_epi8 (a b : V128) : V128 := fun i => (a i + b i) % 256

/-- Signed lane-wise `a < b`. -/
def _mm_cmplt_epi8 (a b : V128) : V128 := fun i =>
  if toInt8 (a i) < toInt8 (b i) then 0xFF else 0

/-- Signed lane-wise `a > b`. -/
def _mm_cmpgt_epi8 (a b : V128) : V128 := fun i =>
  if toInt8 (a i) > toInt8 (b i) then 0xFF else 0

/-- Returns 1 when `a & b` is all zero, 0 otherwise. -/
def _mm_testz_si128 (a b : V128) : Nat :=
  if ∀ i : Fin 16, a i &&& b i = 0 then 1 else 0

/-- The 32-bit lane `k` of the register (its bit pattern, little endian). -/
def _mm_extract_epi32 (a : V128) (k : Fin 4) : Nat :=
  a ⟨4 * k.val, by omega⟩ + 256 * a ⟨4 * k.val + 1, by omega⟩
    + 65536 * a ⟨4 * k.val + 2, by omega⟩ + 16777216 * a ⟨4 * k.val + 3, by omega⟩

/-! ## Classification tables

The C arrays have element type `int8_t`; the entries are listed here as the
bytes they occupy in memory (`0x80` for the `int8_t` value -128, and so on). -/

def _first_len_tbl : List Nat :=
  [0, 0, 0, 0, 0, 0, 0, 0, 0, 0, 0, 0, 1, 1, 2, 3]

def _first_range_tbl : List Nat :=
  [0, 0, 0, 0, 0, 0, 0, 0, 0, 0, 0, 0, 8, 8, 8, 8]

def _range_min_tbl : List Nat :=
  [0x00, 0x80, 0x80, 0x80, 0xA0, 0x80, 0x90, 0x80,
   0xC2, 0x7F, 0x7F, 0x7F, 0x7F, 0x7F, 0x7F, 0x7F]

def _range_max_tbl : List Nat :=
  [0x7F, 0xBF, 0xBF, 0xBF, 0xBF, 0x9F, 0xBF, 0x8F,
   0xF4, 0x80, 0x80, 0x80, 0x80, 0x80, 0x80, 0x80]

def _df_ee_tbl : List Nat :=
  [0, 2, 0, 0, 0, 0, 0, 0, 0, 0, 0, 0, 0, 0, 3, 0]

def _ef_fe_tbl : List Nat :=
  [0, 3, 0, 0, 0, 4, 0, 0, 0, 0, 0, 0, 0, 0, 0, 0]

/-! ## The chunk classifier -/

structure processed_utf_bytes where
  input : V128
  first_len : V128

/-- The function `check_utf8_bytes`: the new carry state (which the C code
writes through `previous` and returns) paired with the new value of
`*has_error`. -/
def check_utf8_bytes (input : V128) (previous : processed_utf_bytes) (has_error : V128) :
    processed_utf_bytes × V128 :=
  let first_len_tbl := _mm_lddqu_si128 _first_len_tbl
  let first_range_tbl := _mm_lddqu_si128 _first_range_tbl
  let range_min_tbl := _mm_lddqu_si128 _range_min_tbl
  let range_max_tbl := _mm_lddqu_si128 _range_max_tbl
  let df_ee_tbl := _mm_lddqu_si128 _df_ee_tbl
  let ef_fe_tbl := _mm_lddqu_si128 _ef_fe_tbl
  let high_nibbles := _mm_and_si128 (_mm_srli_epi16 input 4) (_mm_set1_epi8 0x0F)
  let first_len := _mm_shuffle_epi8 first_len_tbl high_nibbles
  let range := _mm_shuffle_epi8 first_range_tbl high_nibbles
  let range := _mm_or_si128 range (_mm_alignr_epi8 first_len previous.first_len 15)
  let tmp1 := _mm_subs_epu8 first_len (_mm_set1_epi8 1)
  let tmp2 := _mm_subs_epu8 previous.first_len (_mm_set1_epi8 1)
  let range := _mm_or_si128 range (_mm_alignr_epi8 tmp1 tmp2 14)
  let tmp1 := _mm_subs_epu8 first_len (_mm_set1_epi8 2)
  let tmp2 := _mm_subs_epu8 previous.first_len (_mm_set1_epi8 2)
  let range := _mm_or_si128 range (_mm_alignr_epi8 tmp1 tmp2 13)
  let shift1 := _mm_alignr_epi8 input previous.input 15
  let pos := _mm_sub_epi8 shift1 (_mm_set1_epi8 0xEF)
  let tmp1 := _mm_subs_epu8 pos (_mm_set1_epi8 240)
  let range2 := _mm_shuffle_epi8 df_ee_tbl tmp1
  let tmp2 := _mm_adds_epu8 pos (_mm_set1_epi8 112)
  let range2 := _mm_add_epi8 range2 (_mm_shuffle_epi8 ef_fe_tbl tmp2)
  let range := _mm_add_epi8 range range2
  let minv := _mm_shuffle_epi8 range_min_tbl range
  let maxv := _mm_shuffle_epi8 range_max_tbl range
  let has_error := _mm_or_si128 has_error (_mm_cmplt_epi8 input minv)
  let has_error := _mm_or_si128 has_error (_mm_cmpgt_epi8 input maxv)
  ({ input := input, first_len := first_len }, has_error)

/-! ## The scan -/

/-- The local variables of `utf8_range_asciipath` that the chunk loop updates;
`data` is the offset of the pointer `data` from the start of the buffer. -/
structure LoopState where
  previous : processed_utf_bytes
  has_error : V128
  data : Nat
  len : Nat

/-- State on entry to the loop. -/
def LoopState.init (len : Nat) : LoopState :=
  { previous := { input := _mm_setzero_si128, first_len := _mm_setzero_si128 }
    has_error := _mm_setzero_si128
    data := 0
    len := len }

/-- One iteration of the body of `while (len >= 16)`. -/
def loop_body (buf : List Nat) (s : LoopState) : LoopState :=
  let current_bytes := _mm_loadu_si128 buf s.data
  let r := check_utf8_bytes current_bytes s.previous s.has_error
  { previous := r.1, has_error := r.2, data := s.data + 16, len := s.len - 16 }

/-- The loop `while (len >= 16)`, run for at most `fuel` iterations. -/
def chunk_loop (buf : List Nat) : Nat → LoopState → LoopState
  | 0, s => s
  | fuel + 1, s => if 16 ≤ s.len then chunk_loop buf fuel (loop_body buf s) else s

/-- Values of the reads that fall outside the objects the function owns. -/
structure Env where
  /-- The 4-byte word found `4 * (k + 1)` bytes past the start of `token4`. -/
  past_token4 : Nat → Nat
  /-- The byte at `data[q]` for an offset `q` outside the buffer. -/
  outside : Int → Nat

/-- The expression `token[k]`, with `token = (const unsigned *)&token4`: index 0
is the object `token4` itself, every other index addresses a word past it. -/
def token (env : Env) (token4 : Nat) : Nat → Nat
  | 0 => token4
  | k + 1 => env.past_token4 k % 4294967296

/-- The lookahead that `utf8_range_asciipath` computes after the chunk loop. -/
def lookahead (env : Env) (previous_input : V128) : Nat :=
  let token4 := _mm_extract_epi32 previous_input 3
  if token env token4 3 > 0xBF then 1
  else if token env token4 2 > 0xBF then 2
  else if token env token4 1 > 0xBF then 3
  else 0

/-- The byte at offset `q` from the start of the buffer. -/
def byte_at (env : Env) (buf : List Nat) (q : Int) : Nat :=
  if 0 ≤ q ∧ q < buf.length then buf.getD q.toNat 0 else env.outside q % 256

/-- The `len` bytes that start at offset `data` from the start of the buffer. -/
def byte_range (env : Env) (buf : List Nat) (data : Int) (len : Nat) : List Nat :=
  (List.range len).map fun (j : Nat) => byte_at env buf (data + (j : Int))

/-- The statements `data -= lookahead; len += lookahead;`: the values of `data`
(as an offset from the start of the buffer) and of `len` with which
`utf8_naive` is called. -/
def rewind (env : Env) (s : LoopState) : Int × Nat :=
  let lookahead := lookahead env s.previous.input
  ((s.data : Int) - lookahead, s.len + lookahead)

/-- The function `utf8_range_asciipath(data, len)` on the buffer `buf` of `len`
bytes, with `utf8_naive` the scalar validator it delegates to. -/
def utf8_range_asciipath (utf8_naive : List Nat → Int) (env : Env) (buf : List Nat) : Int :=
  let s := chunk_loop buf buf.length (LoopState.init buf.length)
  if _mm_testz_si128 s.has_error s.has_error = 0 then -1
  else
    let r := rewind env s
    utf8_naive (byte_range env buf r.1 r.2)

/-- Carry state and error mask after `check_utf8_bytes` has been applied, in
order, to the first `k` 16-byte chunks of the buffer, starting from the all-zero
carry state and the all-zero mask. -/
def scan_chunks (buf : List Nat) : Nat → processed_utf_bytes × V128
  | 0 => ({ input := _mm_setzero_si128, first_len := _mm_setzero_si128 }, _mm_setzero_si128)
  | k + 1 =>
    check_utf8_bytes (_mm_loadu_si128 buf (16 * k)) (scan_chunks buf k).1 (scan_chunks buf k).2

/-! ## The classifier seen from one lane

The quantities `check_utf8_bytes` computes in one lane, as functions of the
byte `d` in that lane and of the bytes `c1`, `c2`, `c3` that precede it in the
stream by one, two and three positions. -/

/-- Result of `_mm_shuffle_epi8` in a lane whose index byte is `x`. -/
def shuffle_entry (tbl : List Nat) (x : Nat) : Nat :=
  if x / 128 % 2 = 1 then 0 else tbl.getD (x % 16) 0

/-- The lane of `first_len` for the byte `x`. -/
def first_len_of (x : Nat) : Nat := _first_len_tbl.getD (x / 16) 0

/-- The lane of `range2` when the preceding byte is `c1`. -/
def range_adjust (c1 : Nat) : Nat :=
  let pos := (c1 + (256 - 0xEF)) % 256
  (shuffle_entry _df_ee_tbl (pos - 240) + shuffle_entry _ef_fe_tbl (min (pos + 112) 255)) % 256

/-- The lane of the final `range`. -/
def range_index (c3 c2 c1 d : Nat) : Nat :=
  ((_first_range_tbl.getD (d / 16) 0 ||| first_len_of c1 ||| (first_len_of c2 - 1)
      ||| (first_len_of c3 - 2)) + range_adjust c1) % 256

/-- The two signed comparisons of the lane: `input < minv` or `input > maxv`. -/
def lane_error (c3 c2 c1 d : Nat) : Prop :=
  toInt8 d < toInt8 (shuffle_entry _range_min_tbl (range_index c3 c2 c1 d)) ∨
  toInt8 d > toInt8 (shuffle_entry _range_max_tbl (range_index c3 c2 c1 d))

instance (c3 c2 c1 d : Nat) : Decidable (lane_error c3 c2 c1 d) := by
  unfold lane_error; infer_instance

/-- The byte `m` positions before position `p` of the buffer, 0 when that is
before the start (the initial carry state is all zero). -/
def byte_before (buf : List Nat) (p m : Nat) : Nat :=
  if m ≤ p then buf.getD (p - m) 0 else 0

/-- A byte that starts no well-formed sequence and continues none. -/
def IllegalByte (x : Nat) : Prop := x = 0xC0 ∨ x = 0xC1 ∨ (0xF5 ≤ x ∧ x ≤ 0xFF)

/-- A lead byte `c` followed by a second byte `d` outside the window RFC 3629
allows after it: an overlong 3- or 4-byte form, a surrogate, or a code point
above U+10FFFF. -/
def BadPair (c d : Nat) : Prop :=
  (c = 0xE0 ∧ 0x80 ≤ d ∧ d ≤ 0x9F) ∨ (c = 0xED ∧ 0xA0 ≤ d ∧ d ≤ 0xBF) ∨
  (c = 0xF0 ∧ 0x80 ≤ d ∧ d ≤ 0x8F) ∨ (c = 0xF4 ∧ 0x90 ≤ d ∧ d ≤ 0xBF)

/-! ## Well-formed UTF-8 (RFC 3629) -/

/-- The rule `UTF8-tail = %x80-BF`. -/
def UTF8_tail (b : Nat) : Prop := 0x80 ≤ b ∧ b ≤ 0xBF

/-- First two bytes of `UTF8-3`: `E0 A0-BF`, `E1-EC 80-BF`, `ED 80-9F`,
`EE-EF 80-BF`. -/
def UTF8_3_head (a b : Nat) : Prop :=
  (a = 0xE0 ∧ 0xA0 ≤ b ∧ b ≤ 0xBF) ∨ (0xE1 ≤ a ∧ a ≤ 0xEC ∧ UTF8_tail b) ∨
  (a = 0xED ∧ 0x80 ≤ b ∧ b ≤ 0x9F) ∨ (0xEE ≤ a ∧ a ≤ 0xEF ∧ UTF8_tail b)

/-- First two bytes of `UTF8-4`: `F0 90-BF`, `F1-F3 80-BF`, `F4 80-8F`. -/
def UTF8_4_head (a b : Nat) : Prop :=
  (a = 0xF0 ∧ 0x90 ≤ b ∧ b ≤ 0xBF) ∨ (0xF1 ≤ a ∧ a ≤ 0xF3 ∧ UTF8_tail b) ∨
  (a = 0xF4 ∧ 0x80 ≤ b ∧ b ≤ 0x8F)

/-- The rule `UTF8-octets = *( UTF8-char )` of RFC 3629. -/
inductive WellFormed : List Nat → Prop
  | nil : WellFormed []
  | one (a : Nat) (t : List Nat) : a ≤ 0x7F → WellFormed t → WellFormed (a :: t)
  | two (a b : Nat) (t : List Nat) : 0xC2 ≤ a → a ≤ 0xDF → UTF8_tail b →
      WellFormed t → WellFormed (a :: b :: t)
  | three (a b c : Nat) (t : List Nat) : UTF8_3_head a b → UTF8_tail c →
      WellFormed t → WellFormed (a :: b :: c :: t)
  | four (a b c d : Nat) (t : List Nat) : UTF8_4_head a b → UTF8_tail c → UTF8_tail d →
      WellFormed t → WellFormed (a :: b :: c :: d :: t)

instance (b : Nat) : Decidable (UTF8_tail b) := by unfold UTF8_tail; infer_instance

instance (a b : Nat) : Decidable (UTF8_3_head a b) := by unfold UTF8_3_head; infer_instance

instance (a b : Nat) : Decidable (UTF8_4_head a b) := by unfold UTF8_4_head; infer_instance

/-- A byte-by-byte decision procedure for `WellFormed`. -/
def wellFormedB : List Nat → Bool
  | [] => true
  | a :: t =>
    if a ≤ 0x7F then wellFormedB t
    else match t with
      | [] => false
      | b :: t1 =>
        if 0xC2 ≤ a ∧ a ≤ 0xDF then decide (UTF8_tail b) && wellFormedB t1
        else match t1 with
          | [] => false
          | c :: t2 =>
            if 0xE0 ≤ a ∧ a ≤ 0xEF then
              decide (UTF8_3_head a b) && decide (UTF8_tail c) && wellFormedB t2
            else match t2 with
              | [] => false
              | d :: t3 =>
                decide (UTF8_4_head a b) && decide (UTF8_tail c) && decide (UTF8_tail d)
                  && wellFormedB t3

/-- Modelled from the spec: `utf8_naive` is declared in the source file but
defined elsewhere; this is a scalar validator that meets the contract the spec
gives for it (0 on a well-formed range, non-zero otherwise). -/
def utf8_naive_ref (l : List Nat) : Int := if wellFormedB l then 0 else -1

/-- The contract assumed of the scalar validator: it returns 0 exactly on the
well-formed ranges. -/
def NaiveCorrect (utf8_naive : List Nat → Int) : Prop :=
  ∀ l, utf8_naive l = 0 ↔ WellFormed l

/-- Every element is a byte value. -/
def Bytes (buf : List Nat) : Prop := ∀ x ∈ buf, x < 256

/-! ## Reference data for the statements below -/

/-- The lookahead as the specification words it: a walk over the byte values at
positions 15, 14 and 13 of the last processed chunk. -/
def lookahead_spec (previous_input : V128) : Nat :=
  if previous_input 15 > 0xBF then 1
  else if previous_input 14 > 0xBF then 2
  else if previous_input 13 > 0xBF then 3
  else 0

/-- An environment in which the words past `token4` and the bytes around the
buffer are all zero. -/
def env_zero : Env := { past_token4 := fun _ => 0, outside := fun _ => 0 }

/-- An environment in which the word that `token[3]` addresses is `0x100` and the
bytes around the buffer are `0xFF`. -/
def env_high : Env := { past_token4 := fun k => if k = 2 then 0x100 else 0, outside := fun _ => 0xFF }

/-- Five repetitions of `F0 9F 98 80` (20 bytes). -/
def five_smileys : List Nat :=
  [0xF0, 0x9F, 0x98, 0x80, 0xF0, 0x9F, 0x98, 0x80, 0xF0, 0x9F, 0x98, 0x80,
   0xF0, 0x9F, 0x98, 0x80, 0xF0, 0x9F, 0x98, 0x80]

/-- A run of `k` bytes `a` (0x61). -/
def ascii_run (k : Nat) : List Nat := List.replicate k 0x61

/-! ## The ASCII fast path and the range index of a chunk -/

/-- The sixteen bytes given to `_mm_setr_epi8`, the first being lane 0. -/
def _mm_setr_epi8 (l : List Nat) : V128 := fun i => l.getD i.val 0 % 256

/-- The function `check_utf8`: the new carry state paired with the new value of
`*has_error`. On an all-ASCII chunk only the error mask is written. -/
def check_utf8 (in_ : V128) (previous : processed_utf_bytes) (has_error : V128) :
    processed_utf_bytes × V128 :=
  let high_bit := _mm_set1_epi8 0x80
  if _mm_testz_si128 (_mm_or_si128 in_ in_) high_bit = 1 then
    (previous,
      _mm_or_si128
        (_mm_cmpgt_epi8 previous.first_len
          (_mm_setr_epi8 [9, 9, 9, 9, 9, 9, 9, 9, 9, 9, 9, 9, 9, 2, 1, 0]))
        has_error)
  else
    check_utf8_bytes in_ previous has_error

/-- The local `range` of `check_utf8_bytes` once `range2` has been added: the
range index of every lane, from which `minv` and `maxv` are fetched. -/
def chunk_range (input : V128) (previous : processed_utf_bytes) : V128 :=
  let first_len_tbl := _mm_lddqu_si128 _first_len_tbl
  let first_range_tbl := _mm_lddqu_si128 _first_range_tbl
  let df_ee_tbl := _mm_lddqu_si128 _df_ee_tbl
  let ef_fe_tbl := _mm_lddqu_si128 _ef_fe_tbl
  let high_nibbles := _mm_and_si128 (_mm_srli_epi16 input 4) (_mm_set1_epi8 0x0F)
  let first_len := _mm_shuffle_epi8 first_len_tbl high_nibbles
  let range := _mm_shuffle_epi8 first_range_tbl high_nibbles
  let range := _mm_or_si128 range (_mm_alignr_epi8 first_len previous.first_len 15)
  let tmp1 := _mm_subs_epu8 first_len (_mm_set1_epi8 1)
  let tmp2 := _mm_subs_epu8 previous.first_len (_mm_set1_epi8 1)
  let range := _mm_or_si128 range (_mm_alignr_epi8 tmp1 tmp2 14)
  let tmp1 := _mm_subs_epu8 first_len (_mm_set1_epi8 2)
  let tmp2 := _mm_subs_epu8 previous.first_len (_mm_set1_epi8 2)
  let range := _mm_or_si128 range (_mm_alignr_epi8 tmp1 tmp2 13)
  let shift1 := _mm_alignr_epi8 input previous.input 15
  let pos := _mm_sub_epi8 shift1 (_mm_set1_epi8 0xEF)
  let tmp1 := _mm_subs_epu8 pos (_mm_set1_epi8 240)
  let range2 := _mm_shuffle_epi8 df_ee_tbl tmp1
  let tmp2 := _mm_adds_epu8 pos (_mm_set1_epi8 112)
  let range2 := _mm_add_epi8 range2 (_mm_shuffle_epi8 ef_fe_tbl tmp2)
  _mm_add_epi8 range range2

/-- The range test of `check_utf8_bytes` in one lane: the byte `b` against the
entries that `_mm_shuffle_epi8` fetches from `_range_min_tbl` and
`_range_max_tbl` for the range index `r`, both comparisons signed. -/
def range_flags (r b : Nat) : Prop :=
  toInt8 b < toInt8 (shuffle_entry _range_min_tbl r) ∨
  toInt8 b > toInt8 (shuffle_entry _range_max_tbl r)

instance (r b : Nat) : Decidable (range_flags r b) := by unfold range_flags; infer_instance

/-- The window of byte values that the comment on the range tables gives for
each range index 0 to 8. -/
def documented_window (r b : Nat) : Prop :=
  (r = 0 ∧ b ≤ 0x7F) ∨ (1 ≤ r ∧ r ≤ 3 ∧ 0x80 ≤ b ∧ b ≤ 0xBF) ∨ (r = 4 ∧ 0xA0 ≤ b ∧ b ≤ 0xBF) ∨
  (r = 5 ∧ 0x80 ≤ b ∧ b ≤ 0x9F) ∨ (r = 6 ∧ 0x90 ≤ b ∧ b ≤ 0xBF) ∨
  (r = 7 ∧ 0x80 ≤ b ∧ b ≤ 0x8F) ∨ (r = 8 ∧ 0xC2 ≤ b ∧ b ≤ 0xF4)

instance (r b : Nat) : Decidable (documented_window r b) := by
  unfold documented_window; infer_instance

/-- The second-byte window after each of the four special lead bytes. -/
def narrowed_window (lead d : Nat) : Prop :=
  (lead = 0xE0 ∧ 0xA0 ≤ d ∧ d ≤ 0xBF) ∨ (lead = 0xED ∧ 0x80 ≤ d ∧ d ≤ 0x9F) ∨
  (lead = 0xF0 ∧ 0x90 ≤ d ∧ d ≤ 0xBF) ∨ (lead = 0xF4 ∧ 0x80 ≤ d ∧ d ≤ 0x8F)

/-- A carry state as the classifier leaves it: byte values in `input`, and in
`first_len` the length classification of those bytes. -/
def CarryOf (previous : processed_utf_bytes) : Prop :=
  (∀ j, previous.input j < 256) ∧
  previous.first_len = fun j => first_len_of (previous.input j)

/-- The per-position threshold of the ASCII fast path as the specification
words it: 1 at position 13, 2 at position 14, 3 at position 15, 0 before. -/
def ascii_threshold_spec (i : Fin 16) : Nat :=
  if i.val = 13 then 1 else if i.val = 14 then 2 else if i.val = 15 then 3 else 0

/-- The carried chunk ended inside a sequence: a lead byte in one of its last
three lanes announces more continuation bytes than the chunk still held. -/
def ends_mid_sequence (previous : processed_utf_bytes) : Prop :=
  1 ≤ previous.first_len 15 ∨ 2 ≤ previous.first_len 14 ∨ 3 ≤ previous.first_len 13

instance (previous : processed_utf_bytes) : Decidable (ends_mid_sequence previous) := by
  unfold ends_mid_sequence; infer_instance

/-! ## The position reported by the scalar validator -/

/-- A position `r` in a range seen from `k` bytes earlier; 0 stays 0 (no error). -/
def shift_pos (k r : Nat) : Nat := if r = 0 then 0 else r + k

/-- Modelled from the spec: what `utf8_naive`, defined outside the source file,
returns when it reports a position: 0 on a well-formed range, otherwise the
1-based position of the first byte of the first sequence that is not well
formed. -/
def first_invalid_pos : List Nat → Nat
  | [] => 0
  | a :: t =>
    if a ≤ 0x7F then shift_pos 1 (first_invalid_pos t)
    else match t with
      | [] => 1
      | b :: t1 =>
        if 0xC2 ≤ a ∧ a ≤ 0xDF then
          if UTF8_tail b then shift_pos 2 (first_invalid_pos t1) else 1
        else match t1 with
          | [] => 1
          | c :: t2 =>
            if 0xE0 ≤ a ∧ a ≤ 0xEF then
              if UTF8_3_head a b ∧ UTF8_tail c then shift_pos 3 (first_invalid_pos t2) else 1
            else match t2 with
              | [] => 1
              | d :: t3 =>
                if UTF8_4_head a b ∧ UTF8_tail c ∧ UTF8_tail d then
                  shift_pos 4 (first_invalid_pos t3)
                else 1

/-- Modelled from the spec: a scalar validator that returns `first_invalid_pos`. -/
def utf8_naive_pos (l : List Nat) : Int := (first_invalid_pos l : Int)

/-! ## The scan driven through `check_utf8` -/

/-- What a byte string still owes the grammar after its last byte: nothing, one
to three continuation bytes, or the narrowed second byte of `E0`, `ED`, `F0`,
`F4`. -/
inductive Pending
  | done | tail1 | tail2 | tail3 | afterE0 | afterED | afterF0 | afterF4
  deriving DecidableEq

/-- The state after one more byte, `none` when the byte is not allowed. -/
def step : Pending → Nat → Option Pending
  | .done, d =>
    if d ≤ 0x7F then some .done
    else if 0xC2 ≤ d ∧ d ≤ 0xDF then some .tail1
    else if d = 0xE0 then some .afterE0
    else if d = 0xED then some .afterED
    else if 0xE1 ≤ d ∧ d ≤ 0xEF then some .tail2
    else if d = 0xF0 then some .afterF0
    else if 0xF1 ≤ d ∧ d ≤ 0xF3 then some .tail3
    else if d = 0xF4 then some .afterF4
    else none
  | .tail1, d => if 0x80 ≤ d ∧ d ≤ 0xBF then some .done else none
  | .tail2, d => if 0x80 ≤ d ∧ d ≤ 0xBF then some .tail1 else none
  | .tail3, d => if 0x80 ≤ d ∧ d ≤ 0xBF then some .tail2 else none
  | .afterE0, d => if 0xA0 ≤ d ∧ d ≤ 0xBF then some .tail1 else none
  | .afterED, d => if 0x80 ≤ d ∧ d ≤ 0x9F then some .tail1 else none
  | .afterF0, d => if 0x90 ≤ d ∧ d ≤ 0xBF then some .tail2 else none
  | .afterF4, d => if 0x80 ≤ d ∧ d ≤ 0x8F then some .tail2 else none

/-- The state after a byte string, `none` once a byte was not allowed. -/
def run : Pending → List Nat → Option Pending
  | s, [] => some s
  | s, d :: t =>
    match step s d with
    | some s2 => run s2 t
    | none => none

/-- Bytes that settle what a state owes. -/
def completion : Pending → List Nat
  | .done => []
  | .tail1 => [0x80]
  | .tail2 => [0x80, 0x80]
  | .tail3 => [0x80, 0x80, 0x80]
  | .afterE0 => [0xA0, 0x80]
  | .afterED => [0x80, 0x80]
  | .afterF0 => [0x90, 0x80, 0x80]
  | .afterF4 => [0x80, 0x80, 0x80]

/-- The byte strings that settle what a state owes and go on well formed. -/
def Completes : Pending → List Nat → Prop
  | .done, l => WellFormed l
  | .tail1, l => ∃ b t, l = b :: t ∧ UTF8_tail b ∧ WellFormed t
  | .tail2, l => ∃ b c t, l = b :: c :: t ∧ UTF8_tail b ∧ UTF8_tail c ∧ WellFormed t
  | .tail3, l =>
    ∃ b c d t, l = b :: c :: d :: t ∧ UTF8_tail b ∧ UTF8_tail c ∧ UTF8_tail d ∧ WellFormed t
  | .afterE0, l =>
    ∃ b c t, l = b :: c :: t ∧ (0xA0 ≤ b ∧ b ≤ 0xBF) ∧ UTF8_tail c ∧ WellFormed t
  | .afterED, l =>
    ∃ b c t, l = b :: c :: t ∧ (0x80 ≤ b ∧ b ≤ 0x9F) ∧ UTF8_tail c ∧ WellFormed t
  | .afterF0, l =>
    ∃ b c d t, l = b :: c :: d :: t ∧ (0x90 ≤ b ∧ b ≤ 0xBF) ∧ UTF8_tail c ∧ UTF8_tail d ∧
      WellFormed t
  | .afterF4, l =>
    ∃ b c d t, l = b :: c :: d :: t ∧ (0x80 ≤ b ∧ b ≤ 0x8F) ∧ UTF8_tail c ∧ UTF8_tail d ∧
      WellFormed t

/-- The values the classifier holds about the last three bytes (their
`first_len` entries `f3`, `f2`, `f1`, oldest first, and the adjustment `a` of the
last one) that go with a state of the automaton. -/
def carries : Pending → Nat → Nat → Nat → Nat → Bool
  | .done, f3, f2, f1, a => f1 = 0 ∧ a = 0 ∧ f2 ≤ 1 ∧ f3 ≤ 2
  | .tail1, f3, f2, f1, a =>
    a = 0 ∧ ((f1 = 1 ∧ f2 ≤ 1 ∧ f3 ≤ 2) ∨ (f1 = 0 ∧ f2 = 2 ∧ f3 ≤ 2) ∨
      (f1 = 0 ∧ f2 = 0 ∧ f3 = 3))
  | .tail2, f3, f2, f1, a =>
    a = 0 ∧ ((f1 = 2 ∧ f2 ≤ 1 ∧ f3 ≤ 2) ∨ (f1 = 0 ∧ f2 = 3 ∧ f3 ≤ 2))
  | .tail3, f3, f2, f1, a => a = 0 ∧ f1 = 3 ∧ f2 ≤ 1 ∧ f3 ≤ 2
  | .afterE0, f3, f2, f1, a => a = 2 ∧ f1 = 2 ∧ f2 ≤ 1 ∧ f3 ≤ 2
  | .afterED, f3, f2, f1, a => a = 3 ∧ f1 = 2 ∧ f2 ≤ 1 ∧ f3 ≤ 2
  | .afterF0, f3, f2, f1, a => a = 3 ∧ f1 = 3 ∧ f2 ≤ 1 ∧ f3 ≤ 2
  | .afterF4, f3, f2, f1, a => a = 4 ∧ f1 = 3 ∧ f2 ≤ 1 ∧ f3 ≤ 2

/-- The state that follows, checked against the values the classifier will hold
once the byte `d` has gone by. -/
def carried_on (s : Pending) (f2 f1 d : Nat) : Bool :=
  match step s d with
  | none => true
  | some s2 => carries s2 f2 f1 (first_len_of d) (range_adjust d)

/-- The range index of the byte at position `p` of the buffer. -/
def range_index_at (buf : List Nat) (p : Nat) : Nat :=
  range_index (byte_before buf p 3) (byte_before buf p 2) (byte_before buf p 1) (buf.getD p 0)

/-- The byte at position `p` of the buffer fails the range test of its lane. -/
def lane_error_at (buf : List Nat) (p : Nat) : Prop :=
  lane_error (byte_before buf p 3) (byte_before buf p 2) (byte_before buf p 1) (buf.getD p 0)

/-! ## Lane-level lemmas about the vector primitives -/

theorem lor_eq_zero_iff (a b : Nat) : a ||| b = 0 ↔ a = 0 ∧ b = 0 := by
  constructor
  · intro h
    have key : ∀ i, a.testBit i = false ∧ b.testBit i = false := by
      intro i
      have := congrArg (fun x => x.testBit i) h
      simpa [Nat.testBit_or] using this
    exact ⟨Nat.eq_of_testBit_eq (by intro i; simp [(key i).1]),
      Nat.eq_of_testBit_eq (by intro i; simp [(key i).2])⟩
  · rintro ⟨rfl, rfl⟩
    rfl

/-- The high nibble of every byte lane, as `check_utf8_bytes` computes it. -/
theorem high_nibble_lane (input : V128) (hin : ∀ j, input j < 256) (i : Fin 16) :
    _mm_and_si128 (_mm_srli_epi16 input 4) (_mm_set1_epi8 0x0F) i = input i / 16 := by
  have e : (15 : Nat) = 2 ^ 4 - 1 := by norm_num
  simp only [_mm_and_si128, _mm_srli_epi16, _mm_set1_epi8, Nat.shiftRight_eq_div_pow]
  norm_num
  rw [e, Nat.and_pow_two_sub_one_eq_mod]
  have h1 := hin ⟨2 * (i.val / 2), by omega⟩
  have h2 := hin ⟨2 * (i.val / 2) + 1, by omega⟩
  have hi := hin i
  rcases Nat.mod_two_eq_zero_or_one i.val with h | h
  · have e1 : (⟨2 * (i.val / 2), by omega⟩ : Fin 16) = i := by
      apply Fin.ext; simp only; omega
    simp only [h, if_true]
    rw [e1] at h1 ⊢
    omega
  · have e1 : (⟨2 * (i.val / 2) + 1, by omega⟩ : Fin 16) = i := by
      apply Fin.ext; simp only; omega
    simp only [h]
    rw [e1] at h2 ⊢
    norm_num
    omega

/-- A table lookup by high nibble, lane by lane. -/
theorem shuffle_high_nibble (tbl : List Nat) (input : V128) (hin : ∀ j, input j < 256) :
    _mm_shuffle_epi8 (_mm_lddqu_si128 tbl)
        (_mm_and_si128 (_mm_srli_epi16 input 4) (_mm_set1_epi8 0x0F))
      = fun j => tbl.getD (input j / 16) 0 := by
  funext j
  have h := high_nibble_lane input hin j
  have hj := hin j
  simp only [_mm_shuffle_epi8, _mm_lddqu_si128, h]
  have h1 : input j / 16 / 128 % 2 = 0 := by omega
  have h2 : input j / 16 % 16 = input j / 16 := by omega
  simp [h1, h2]

theorem shuffle_lane (tbl : List Nat) (x : V128) (i : Fin 16) :
    _mm_shuffle_epi8 (_mm_lddqu_si128 tbl) x i = shuffle_entry tbl (x i) := by
  simp [_mm_shuffle_epi8, _mm_lddqu_si128, shuffle_entry]

/-- For a shift of at most 16 bytes, `_mm_alignr_epi8` commutes with a lane-wise map. -/
theorem alignr_map (f : Nat → Nat) (a b : V128) (n : Nat) (hn : n ≤ 16) (i : Fin 16) :
    _mm_alignr_epi8 (fun j => f (a j)) (fun j => f (b j)) n i = f (_mm_alignr_epi8 a b n i) := by
  unfold _mm_alignr_epi8
  by_cases h : i.val + n < 16
  · simp [h]
  · have h2 : i.val + n - 16 < 16 := by omega
    simp [h, h2]

theorem check_utf8_bytes_carry (input : V128) (previous : processed_utf_bytes) (has_error : V128)
    (hin : ∀ j, input j < 256) :
    (check_utf8_bytes input previous has_error).1
      = { input := input, first_len := fun j => first_len_of (input j) } := by
  simp only [check_utf8_bytes, shuffle_high_nibble _ input hin, first_len_of]

theorem check_utf8_bytes_lane (input : V128) (previous : processed_utf_bytes) (has_error : V128)
    (hin : ∀ j, input j < 256)
    (hcarry : previous.first_len = fun j => first_len_of (previous.input j)) (i : Fin 16) :
    (check_utf8_bytes input previous has_error).2 i
      = (has_error i |||
          (if toInt8 (input i) < toInt8 (shuffle_entry _range_min_tbl
              (range_index (_mm_alignr_epi8 input previous.input 13 i)
                (_mm_alignr_epi8 input previous.input 14 i)
                (_mm_alignr_epi8 input previous.input 15 i) (input i))) then 0xFF else 0)) |||
          (if toInt8 (input i) > toInt8 (shuffle_entry _range_max_tbl
              (range_index (_mm_alignr_epi8 input previous.input 13 i)
                (_mm_alignr_epi8 input previous.input 14 i)
                (_mm_alignr_epi8 input previous.input 15 i) (input i))) then 0xFF else 0) := by
  simp only [check_utf8_bytes, shuffle_high_nibble _ input hin, hcarry]
  simp only [_mm_or_si128, _mm_cmplt_epi8, _mm_cmpgt_epi8, shuffle_lane, _mm_add_epi8,
    _mm_subs_epu8, _mm_set1_epi8, _mm_adds_epu8, _mm_sub_epi8, _mm_alignr_epi8,
    range_index, range_adjust, first_len_of]
  have h1 : i.val + 15 - 16 < 16 := by omega
  have h2 : i.val + 14 - 16 < 16 := by omega
  have h3 : i.val + 13 - 16 < 16 := by omega
  have k1 : i.val - 1 < 16 := by omega
  have k2 : i.val - 2 < 16 := by omega
  have k3 : i.val - 3 < 16 := by omega
  by_cases c1 : i.val + 15 < 16 <;> by_cases c2 : i.val + 14 < 16 <;>
    by_cases c3 : i.val + 13 < 16 <;> simp [c1, c2, c3, h1, h2, h3, k1, k2, k3]

/-! ## The carry state and the error mask along the scan -/

theorem byte_before_lt (buf : List Nat) (hb : Bytes buf) (p m : Nat) : byte_before buf p m < 256 := by
  unfold byte_before
  split
  · rcases Nat.lt_or_ge (p - m) buf.length with h | h
    · rw [List.getD_eq_getElem _ _ h]
      exact hb _ (List.getElem_mem h)
    · rw [List.getD_eq_default _ _ h]
      norm_num
  · norm_num

theorem loadu_eq_byte_before (buf : List Nat) (k : Nat) :
    _mm_loadu_si128 buf (16 * k) = fun j => byte_before buf (16 * (k + 1)) (16 - j.val) := by
  funext j
  have hj := j.isLt
  have h1 : 16 - j.val ≤ 16 * (k + 1) := by omega
  have h2 : 16 * (k + 1) - (16 - j.val) = 16 * k + j.val := by omega
  simp only [_mm_loadu_si128, byte_before, h1, if_true, h2]

/-- The carry state after `k` chunks holds chunk `k - 1` (all zero for `k = 0`)
and its per-byte length classification. -/
theorem scan_carry (buf : List Nat) (hb : Bytes buf) (k : Nat) :
    (scan_chunks buf k).1
      = { input := fun j => byte_before buf (16 * k) (16 - j.val),
          first_len := fun j => first_len_of (byte_before buf (16 * k) (16 - j.val)) } := by
  cases k with
  | zero =>
    have h : ∀ j : Fin 16, ¬ (16 - j.val ≤ 16 * 0) := by intro j; omega
    simp only [scan_chunks, _mm_setzero_si128, byte_before, h, if_false]
    have : first_len_of 0 = 0 := by decide
    simp only [this]
    rfl
  | succ k =>
    have hin : ∀ j, _mm_loadu_si128 buf (16 * k) j < 256 := by
      intro j; rw [loadu_eq_byte_before]; exact byte_before_lt buf hb _ _
    simp only [scan_chunks]
    rw [check_utf8_bytes_carry _ _ _ hin, loadu_eq_byte_before]

/-- The byte found `m` lanes back from lane `i` of chunk `k`, across the carry. -/
theorem alignr_history (buf : List Nat) (k m : Nat) (hm1 : 1 ≤ m) (hm : m ≤ 16) (i : Fin 16) :
    _mm_alignr_epi8 (_mm_loadu_si128 buf (16 * k))
        (fun j => byte_before buf (16 * k) (16 - j.val)) (16 - m) i
      = byte_before buf (16 * k + i.val) m := by
  have hi := i.isLt
  unfold _mm_alignr_epi8
  by_cases h : i.val + (16 - m) < 16
  · simp only [h, dif_pos]
    unfold byte_before
    have e : 16 - (i.val + (16 - m)) = m - i.val := by omega
    simp only [e]
    by_cases c : m ≤ 16 * k + i.val
    · have c2 : m - i.val ≤ 16 * k := by omega
      have e2 : 16 * k - (m - i.val) = 16 * k + i.val - m := by omega
      simp only [c, c2, if_true, e2]
    · have c2 : ¬ (m - i.val ≤ 16 * k) := by omega
      simp only [c, c2, if_false]
  · have h2 : i.val + (16 - m) - 16 < 16 := by omega
    simp only [h, h2, dif_pos, dif_neg, not_false_eq_true, _mm_loadu_si128, byte_before]
    have c : m ≤ 16 * k + i.val := by omega
    have e : 16 * k + (i.val + (16 - m) - 16) = 16 * k + i.val - m := by omega
    simp only [c, if_true, e]

/-- What processing chunk `k` adds to lane `i` of the error mask. -/
theorem scan_error_step (buf : List Nat) (hb : Bytes buf) (k : Nat) (i : Fin 16) :
    (scan_chunks buf (k + 1)).2 i ≠ 0 ↔
      (scan_chunks buf k).2 i ≠ 0 ∨
        lane_error (byte_before buf (16 * k + i.val) 3) (byte_before buf (16 * k + i.val) 2)
          (byte_before buf (16 * k + i.val) 1) (buf.getD (16 * k + i.val) 0) := by
  have hin : ∀ j, _mm_loadu_si128 buf (16 * k) j < 256 := by
    intro j; rw [loadu_eq_byte_before]; exact byte_before_lt buf hb _ _
  have hc := scan_carry buf hb k
  have hcarry : (scan_chunks buf k).1.first_len
      = fun j => first_len_of ((scan_chunks buf k).1.input j) := by rw [hc]
  have step := check_utf8_bytes_lane (_mm_loadu_si128 buf (16 * k)) (scan_chunks buf k).1
    (scan_chunks buf k).2 hin hcarry i
  have hin2 : (scan_chunks buf k).1.input = fun j => byte_before buf (16 * k) (16 - j.val) := by
    rw [hc]
  rw [hin2] at step
  have a1 := alignr_history buf k 1 (by omega) (by omega) i
  have a2 := alignr_history buf k 2 (by omega) (by omega) i
  have a3 := alignr_history buf k 3 (by omega) (by omega) i
  norm_num at a1 a2 a3
  rw [a1, a2, a3] at step
  have e : (scan_chunks buf (k + 1)).2 i
      = (check_utf8_bytes (_mm_loadu_si128 buf (16 * k)) (scan_chunks buf k).1
          (scan_chunks buf k).2).2 i := rfl
  rw [e, step]
  have hd : _mm_loadu_si128 buf (16 * k) i = buf.getD (16 * k + i.val) 0 := rfl
  rw [hd]
  unfold lane_error
  rw [Ne, lor_eq_zero_iff, lor_eq_zero_iff]
  constructor
  · intro h
    by_contra hcon
    push_neg at hcon
    apply h
    refine ⟨⟨hcon.1, ?_⟩, ?_⟩
    · rw [if_neg (by have := hcon.2.1; omega)]
    · rw [if_neg (by have := hcon.2.2; omega)]
  · rintro (h | h | h) ⟨⟨h1, h2⟩, h3⟩
    · exact h h1
    · rw [if_pos h] at h2; omega
    · rw [if_pos h] at h3; omega

/-- A lane of the error mask is set after `k` chunks exactly when one of the
chunks processed so far has an out-of-range byte in that lane. -/
theorem scan_error_iff (buf : List Nat) (hb : Bytes buf) (k : Nat) (i : Fin 16) :
    (scan_chunks buf k).2 i ≠ 0 ↔
      ∃ j, j < k ∧
        lane_error (byte_before buf (16 * j + i.val) 3) (byte_before buf (16 * j + i.val) 2)
          (byte_before buf (16 * j + i.val) 1) (buf.getD (16 * j + i.val) 0) := by
  induction k with
  | zero => simp [scan_chunks, _mm_setzero_si128]
  | succ k ih =>
    rw [scan_error_step buf hb k i, ih]
    constructor
    · rintro (⟨j, hj, h⟩ | h)
      · exact ⟨j, by omega, h⟩
      · exact ⟨k, by omega, h⟩
    · rintro ⟨j, hj, h⟩
      rcases Nat.lt_or_ge j k with c | c
      · exact Or.inl ⟨j, c, h⟩
      · have : j = k := by omega
        subst this
        exact Or.inr h

/-! ## The chunk loop and the function in closed form -/

/-- State of the loop after `k` iterations. -/
theorem loop_body_iterate (buf : List Nat) (len k : Nat) :
    (loop_body buf)^[k] (LoopState.init len)
      = { previous := (scan_chunks buf k).1, has_error := (scan_chunks buf k).2,
          data := 16 * k, len := len - 16 * k } := by
  induction k with
  | zero => rfl
  | succ k ih =>
    rw [Function.iterate_succ_apply', ih]
    simp only [loop_body, scan_chunks]
    congr 1

/-- The fuelled loop is the body iterated until fewer than 16 bytes remain. -/
theorem chunk_loop_eq_iterate (buf : List Nat) (fuel : Nat) (s : LoopState) :
    chunk_loop buf fuel s = (loop_body buf)^[min fuel (s.len / 16)] s := by
  induction fuel generalizing s with
  | zero => simp [chunk_loop]
  | succ fuel ih =>
    unfold chunk_loop
    by_cases h : 16 ≤ s.len
    · rw [if_pos h, ih]
      have e : (loop_body buf s).len = s.len - 16 := rfl
      have e2 : min (fuel + 1) (s.len / 16) = min fuel ((s.len - 16) / 16) + 1 := by omega
      rw [e, e2, Function.iterate_succ_apply]
    · rw [if_neg h]
      have e2 : min (fuel + 1) (s.len / 16) = 0 := by omega
      rw [e2]
      rfl

/-- With the buffer length as fuel the loop runs to its exit: it processes the
`len / 16` full chunks and leaves `len % 16` bytes. -/
theorem chunk_loop_result (buf : List Nat) :
    chunk_loop buf buf.length (LoopState.init buf.length)
      = { previous := (scan_chunks buf (buf.length / 16)).1,
          has_error := (scan_chunks buf (buf.length / 16)).2,
          data := 16 * (buf.length / 16), len := buf.length % 16 } := by
  rw [chunk_loop_eq_iterate]
  have e : min buf.length ((LoopState.init buf.length).len / 16) = buf.length / 16 := by
    have : (LoopState.init buf.length).len = buf.length := rfl
    rw [this]; omega
  rw [e, loop_body_iterate]
  congr 1
  omega

theorem testz_eq_zero_iff (v : V128) : _mm_testz_si128 v v = 0 ↔ ∃ i, v i ≠ 0 := by
  unfold _mm_testz_si128
  simp only [Nat.and_self]
  constructor
  · intro h
    by_contra hcon
    push_neg at hcon
    rw [if_pos hcon] at h
    omega
  · rintro ⟨i, hi⟩
    rw [if_neg]
    intro hall
    exact hi (hall i)

/-- The function in closed form: reject when a lane of the mask is set after the
full chunks, otherwise delegate the rewound tail. -/
theorem utf8_range_asciipath_eq (utf8_naive : List Nat → Int) (env : Env) (buf : List Nat) :
    utf8_range_asciipath utf8_naive env buf
      = if ∃ i, (scan_chunks buf (buf.length / 16)).2 i ≠ 0 then -1
        else utf8_naive (byte_range env buf
          ((16 * (buf.length / 16) : Nat) -
            (lookahead env (scan_chunks buf (buf.length / 16)).1.input : Nat))
          (buf.length % 16 + lookahead env (scan_chunks buf (buf.length / 16)).1.input)) := by
  unfold utf8_range_asciipath
  simp only [chunk_loop_result, rewind]
  by_cases h : ∃ i, (scan_chunks buf (buf.length / 16)).2 i ≠ 0
  · rw [if_pos ((testz_eq_zero_iff _).2 h), if_pos h]
  · rw [if_neg (fun c => h ((testz_eq_zero_iff _).1 c)), if_neg h]

theorem lookahead_le (env : Env) (v : V128) : lookahead env v ≤ 3 := by
  unfold lookahead
  simp only
  split
  · omega
  · split
    · omega
    · split <;> omega

/-! ## Bytes that the classifier rejects -/

theorem first_len_of_le (x : Nat) : first_len_of x ≤ 3 := by
  unfold first_len_of
  rcases Nat.lt_or_ge (x / 16) 16 with h | h
  · generalize x / 16 = n at h
    interval_cases n <;> decide
  · rw [List.getD_eq_default _ _ (by simpa [_first_len_tbl] using h)]
    omega

set_option maxRecDepth 100000 in
theorem range_adjust_le (c : Nat) : range_adjust c ≤ 4 := by
  have key : ∀ pos, pos < 256 →
      (shuffle_entry _df_ee_tbl (pos - 240) + shuffle_entry _ef_fe_tbl (min (pos + 112) 255)) % 256
        ≤ 4 := by decide
  exact key _ (Nat.mod_lt _ (by norm_num))

theorem range_stack_bounds (f1 g2 g3 a : Nat) (h1 : f1 < 4) (h2 : g2 < 4) (h3 : g3 < 4)
    (ha : a < 5) :
    8 ≤ ((8 ||| f1 ||| (g2 - 1) ||| (g3 - 2)) + a) % 256 ∧
    ((8 ||| f1 ||| (g2 - 1) ||| (g3 - 2)) + a) % 256 ≤ 15 ∧
    ((1 ≤ f1 ∨ 2 ≤ g2 ∨ 3 ≤ g3) → 9 ≤ ((8 ||| f1 ||| (g2 - 1) ||| (g3 - 2)) + a) % 256) := by
  have key : ∀ f : Fin 4, ∀ g : Fin 4, ∀ h : Fin 4, ∀ b : Fin 5,
      8 ≤ ((8 ||| f.val ||| (g.val - 1) ||| (h.val - 2)) + b.val) % 256 ∧
      ((8 ||| f.val ||| (g.val - 1) ||| (h.val - 2)) + b.val) % 256 ≤ 15 ∧
      ((1 ≤ f.val ∨ 2 ≤ g.val ∨ 3 ≤ h.val) →
        9 ≤ ((8 ||| f.val ||| (g.val - 1) ||| (h.val - 2)) + b.val) % 256) := by decide
  exact key ⟨f1, h1⟩ ⟨g2, h2⟩ ⟨g3, h3⟩ ⟨a, ha⟩

/-- The range index of a byte with high nibble `C` to `F` is at least 8, and at
least 9 when one of the three bytes before it is a lead byte whose sequence
still extends over this position. -/
theorem range_index_lead (c3 c2 c1 d : Nat) (hd : 0xC0 ≤ d) (hd2 : d < 256) :
    8 ≤ range_index c3 c2 c1 d ∧ range_index c3 c2 c1 d ≤ 15 ∧
    ((1 ≤ first_len_of c1 ∨ 2 ≤ first_len_of c2 ∨ 3 ≤ first_len_of c3) →
      9 ≤ range_index c3 c2 c1 d) := by
  have hr : _first_range_tbl.getD (d / 16) 0 = 8 := by
    have h1 : 12 ≤ d / 16 := by omega
    have h2 : d / 16 < 16 := by omega
    generalize d / 16 = n at h1 h2
    interval_cases n <;> decide
  unfold range_index
  rw [hr]
  exact range_stack_bounds _ _ _ _ (by have := first_len_of_le c1; omega)
    (by have := first_len_of_le c2; omega) (by have := first_len_of_le c3; omega)
    (by have := range_adjust_le c1; omega)

/-- Range indices 9 to 15 reject every byte. -/
theorem lane_error_of_index_ge_9 (c3 c2 c1 d : Nat) (h9 : 9 ≤ range_index c3 c2 c1 d)
    (h15 : range_index c3 c2 c1 d ≤ 15) : lane_error c3 c2 c1 d := by
  unfold lane_error
  generalize range_index c3 c2 c1 d = r at h9 h15
  have hd := Nat.mod_lt d (show 0 < 256 by norm_num)
  interval_cases r <;>
    simp only [shuffle_entry, _range_min_tbl, _range_max_tbl, toInt8] <;> norm_num <;>
    split_ifs <;> omega

/-- An illegal byte is out of range in its lane whatever precedes it. -/
theorem lane_error_of_illegal (c3 c2 c1 d : Nat) (h : IllegalByte d) : lane_error c3 c2 c1 d := by
  have hd : 0xC0 ≤ d ∧ d < 256 := by
    rcases h with h | h | h <;> omega
  obtain ⟨h8, h15, -⟩ := range_index_lead c3 c2 c1 d hd.1 hd.2
  rcases Nat.lt_or_ge (range_index c3 c2 c1 d) 9 with h9 | h9
  · have e : range_index c3 c2 c1 d = 8 := by omega
    unfold lane_error
    rw [e]
    have hm : d % 256 = d := Nat.mod_eq_of_lt hd.2
    simp only [shuffle_entry, _range_min_tbl, _range_max_tbl, toInt8, hm]
    norm_num
    rcases h with h | h | h
    · subst h; norm_num
    · subst h; norm_num
    · right
      split_ifs <;> omega
  · exact lane_error_of_index_ge_9 c3 c2 c1 d h9 h15

/-- A lead byte that falls inside the sequence another lead byte opened is
rejected in its own lane. -/
theorem lane_error_of_overlap (c3 c2 c1 d : Nat) (hd : 0xC0 ≤ d) (hd2 : d < 256)
    (h : 1 ≤ first_len_of c1 ∨ 2 ≤ first_len_of c2 ∨ 3 ≤ first_len_of c3) :
    lane_error c3 c2 c1 d := by
  obtain ⟨-, h15, h9⟩ := range_index_lead c3 c2 c1 d hd hd2
  exact lane_error_of_index_ge_9 c3 c2 c1 d (h9 h) h15

/-- After `E0`, `ED`, `F0`, `F4` that no earlier lead byte overlaps, the second
byte is checked against the narrowed window (range index 4, 5, 6, 7). -/
theorem lane_error_of_bad_pair (c3 c2 c1 d : Nat) (h : BadPair c1 d)
    (h2 : first_len_of c2 ≤ 1) (h3 : first_len_of c3 ≤ 2) : lane_error c3 c2 c1 d := by
  have hd : 0x80 ≤ d ∧ d ≤ 0xBF := by
    rcases h with h | h | h | h <;> omega
  have hr : _first_range_tbl.getD (d / 16) 0 = 0 := by
    have h1 : 8 ≤ d / 16 := by omega
    have h2 : d / 16 < 12 := by omega
    generalize d / 16 = n at h1 h2
    interval_cases n <;> decide
  have e2 : first_len_of c2 - 1 = 0 := by omega
  have e3 : first_len_of c3 - 2 = 0 := by omega
  have hm : d % 256 = d := Nat.mod_eq_of_lt (by omega)
  unfold lane_error range_index
  rw [hr, e2, e3]
  rcases h with ⟨rfl, h⟩ | ⟨rfl, h⟩ | ⟨rfl, h⟩ | ⟨rfl, h⟩
  · have e : ((0 ||| first_len_of 0xE0 ||| 0 ||| 0) + range_adjust 0xE0) % 256 = 4 := by decide
    rw [e]
    simp only [shuffle_entry, _range_min_tbl, _range_max_tbl, toInt8, hm]
    norm_num
    left
    split_ifs <;> omega
  · have e : ((0 ||| first_len_of 0xED ||| 0 ||| 0) + range_adjust 0xED) % 256 = 5 := by decide
    rw [e]
    simp only [shuffle_entry, _range_min_tbl, _range_max_tbl, toInt8, hm]
    norm_num
    right
    split_ifs <;> omega
  · have e : ((0 ||| first_len_of 0xF0 ||| 0 ||| 0) + range_adjust 0xF0) % 256 = 6 := by decide
    rw [e]
    simp only [shuffle_entry, _range_min_tbl, _range_max_tbl, toInt8, hm]
    norm_num
    left
    split_ifs <;> omega
  · have e : ((0 ||| first_len_of 0xF4 ||| 0 ||| 0) + range_adjust 0xF4) % 256 = 7 := by decide
    rw [e]
    simp only [shuffle_entry, _range_min_tbl, _range_max_tbl, toInt8, hm]
    norm_num
    right
    split_ifs <;> omega

theorem byte_before_succ (buf : List Nat) (q m : Nat) :
    byte_before buf (q + 1) (m + 1) = byte_before buf q m := by
  unfold byte_before
  by_cases h : m ≤ q
  · have h1 : m + 1 ≤ q + 1 := by omega
    have e : q + 1 - (m + 1) = q - m := by omega
    simp only [h, h1, if_true, e]
  · have h1 : ¬ (m + 1 ≤ q + 1) := by omega
    simp only [h, h1, if_false]

/-- A bad pair sets an error in the lane of its second byte or in the lane of
its lead byte. -/
theorem bad_pair_lane_error (buf : List Nat) (q : Nat) (c d : Nat)
    (hc : buf.getD q 0 = c) (hd : buf.getD (q + 1) 0 = d) (hc256 : c < 256) (h : BadPair c d) :
    lane_error (byte_before buf q 3) (byte_before buf q 2) (byte_before buf q 1) (buf.getD q 0) ∨
    lane_error (byte_before buf (q + 1) 3) (byte_before buf (q + 1) 2)
      (byte_before buf (q + 1) 1) (buf.getD (q + 1) 0) := by
  have e1 : byte_before buf (q + 1) 1 = c := by
    rw [byte_before_succ]; unfold byte_before; simpa using hc
  rw [byte_before_succ buf q 2, byte_before_succ buf q 1, e1, hd, hc]
  by_cases hov : first_len_of (byte_before buf q 1) ≤ 1 ∧ first_len_of (byte_before buf q 2) ≤ 2
  · exact Or.inr (lane_error_of_bad_pair _ _ _ _ h hov.1 hov.2)
  · left
    have hlead : 0xC0 ≤ c := by rcases h with h | h | h | h <;> omega
    apply lane_error_of_overlap _ _ _ _ hlead hc256
    omega

/-! ## Well-formed byte strings -/

theorem wellFormed_of_wellFormedB (l : List Nat) (h : wellFormedB l = true) : WellFormed l := by
  induction l using wellFormedB.induct with
  | case1 => exact WellFormed.nil
  | case2 a t ha ih =>
    rw [wellFormedB.eq_def] at h
    simp only [if_pos ha] at h
    exact WellFormed.one a t ha (ih h)
  | case3 a ha =>
    rw [wellFormedB.eq_def] at h
    simp [if_neg ha] at h
  | case4 a ha b t h2 ih =>
    rw [wellFormedB.eq_def] at h
    simp only [if_neg ha, if_pos h2, Bool.and_eq_true, decide_eq_true_eq] at h
    exact WellFormed.two a b t h2.1 h2.2 h.1 (ih h.2)
  | case5 a ha b h2 =>
    rw [wellFormedB.eq_def] at h
    simp [if_neg ha, if_neg h2] at h
  | case6 a ha b h2 c t h3 ih =>
    rw [wellFormedB.eq_def] at h
    simp only [if_neg ha, if_neg h2, if_pos h3, Bool.and_eq_true,
      decide_eq_true_eq] at h
    exact WellFormed.three a b c t h.1.1 h.1.2 (ih h.2)
  | case7 a ha b h2 c h3 =>
    rw [wellFormedB.eq_def] at h
    simp [if_neg ha, if_neg h2, if_neg h3] at h
  | case8 a ha b h2 c h3 d t ih =>
    rw [wellFormedB.eq_def] at h
    simp only [if_neg ha, if_neg h2, if_neg h3, Bool.and_eq_true,
      decide_eq_true_eq] at h
    exact WellFormed.four a b c d t h.1.1.1 h.1.1.2 h.1.2 (ih h.2)

theorem wellFormedB_of_wellFormed (l : List Nat) (h : WellFormed l) : wellFormedB l = true := by
  induction h with
  | nil => rfl
  | one a t ha _ ih =>
    rw [wellFormedB.eq_def]
    simp only [if_pos ha]
    exact ih
  | two a b t h1 h2 hb _ ih =>
    rw [wellFormedB.eq_def]
    simp only [if_neg (show ¬ a ≤ 0x7F by omega), if_pos (And.intro h1 h2),
      Bool.and_eq_true, decide_eq_true_eq]
    exact ⟨hb, ih⟩
  | three a b c t hh hc _ ih =>
    have ha : 0xE0 ≤ a ∧ a ≤ 0xEF := by
      unfold UTF8_3_head at hh; omega
    rw [wellFormedB.eq_def]
    simp only [if_neg (show ¬ a ≤ 0x7F by omega),
      if_neg (show ¬ (0xC2 ≤ a ∧ a ≤ 0xDF) by omega), if_pos ha, Bool.and_eq_true,
      decide_eq_true_eq]
    exact ⟨⟨hh, hc⟩, ih⟩
  | four a b c d t hh hc hd _ ih =>
    have ha : 0xF0 ≤ a ∧ a ≤ 0xF4 := by
      unfold UTF8_4_head at hh; omega
    rw [wellFormedB.eq_def]
    simp only [if_neg (show ¬ a ≤ 0x7F by omega),
      if_neg (show ¬ (0xC2 ≤ a ∧ a ≤ 0xDF) by omega),
      if_neg (show ¬ (0xE0 ≤ a ∧ a ≤ 0xEF) by omega), Bool.and_eq_true, decide_eq_true_eq]
    exact ⟨⟨⟨hh, hc⟩, hd⟩, ih⟩

/-- The byte-by-byte procedure decides `WellFormed`. -/
theorem wellFormedB_iff (l : List Nat) : wellFormedB l = true ↔ WellFormed l :=
  ⟨wellFormed_of_wellFormedB l, wellFormedB_of_wellFormed l⟩

theorem utf8_naive_ref_correct : NaiveCorrect utf8_naive_ref := by
  intro l
  unfold utf8_naive_ref
  rw [← wellFormedB_iff]
  by_cases h : wellFormedB l = true
  · simp [h]
  · simp [h]

/-- A well-formed byte string contains no illegal byte. -/
theorem WellFormed.no_illegal {l : List Nat} (h : WellFormed l) : ∀ x ∈ l, ¬ IllegalByte x := by
  induction h with
  | nil => simp
  | one a t ha _ ih =>
    intro x hx
    rcases List.mem_cons.1 hx with rfl | hx
    · unfold IllegalByte; omega
    · exact ih x hx
  | two a b t h1 h2 hb _ ih =>
    intro x hx
    unfold UTF8_tail at hb
    simp only [List.mem_cons] at hx
    rcases hx with rfl | rfl | hx
    · unfold IllegalByte; omega
    · unfold IllegalByte; omega
    · exact ih x hx
  | three a b c t hh hc _ ih =>
    intro x hx
    unfold UTF8_3_head UTF8_tail at hh
    unfold UTF8_tail at hc
    simp only [List.mem_cons] at hx
    rcases hx with rfl | rfl | rfl | hx
    · unfold IllegalByte; omega
    · unfold IllegalByte; omega
    · unfold IllegalByte; omega
    · exact ih x hx
  | four a b c d t hh hc hd _ ih =>
    intro x hx
    unfold UTF8_4_head UTF8_tail at hh
    unfold UTF8_tail at hc hd
    simp only [List.mem_cons] at hx
    rcases hx with rfl | rfl | rfl | rfl | hx
    · unfold IllegalByte; omega
    · unfold IllegalByte; omega
    · unfold IllegalByte; omega
    · unfold IllegalByte; omega
    · exact ih x hx

/-- A well-formed byte string does not start with a continuation byte. -/
theorem WellFormed.head_not_tail {d : Nat} {l : List Nat} (h : WellFormed (d :: l)) :
    ¬ UTF8_tail d := by
  unfold UTF8_tail
  cases h with
  | one _ _ ha _ => omega
  | two _ b t h1 h2 _ _ => omega
  | three _ b c t hh _ _ => unfold UTF8_3_head at hh; omega
  | four _ b c e t hh _ _ _ => unfold UTF8_4_head at hh; omega

/-- A well-formed byte string contains no bad pair. -/
theorem WellFormed.no_bad_pair {l : List Nat} (h : WellFormed l) :
    ∀ i c d, l[i]? = some c → l[i + 1]? = some d → ¬ BadPair c d := by
  induction h with
  | nil => intro i c d hc; simp at hc
  | one a t ha _ ih =>
    intro i c d hc hd
    rcases i with _ | i
    · simp only [List.getElem?_cons_zero, Option.some.injEq] at hc
      subst hc
      unfold BadPair; omega
    · simp only [List.getElem?_cons_succ] at hc hd
      exact ih i c d hc hd
  | two a b t h1 h2 hb _ ih =>
    intro i c d hc hd
    unfold UTF8_tail at hb
    rcases i with _ | _ | i
    · simp only [List.getElem?_cons_zero, Option.some.injEq] at hc
      subst hc
      unfold BadPair; omega
    · simp only [List.getElem?_cons_succ, List.getElem?_cons_zero, Option.some.injEq] at hc
      subst hc
      unfold BadPair; omega
    · simp only [List.getElem?_cons_succ] at hc hd
      exact ih i c d hc hd
  | three a b e t hh he _ ih =>
    intro i c d hc hd
    unfold UTF8_3_head UTF8_tail at hh
    unfold UTF8_tail at he
    rcases i with _ | _ | _ | i
    · simp only [List.getElem?_cons_zero, List.getElem?_cons_succ, zero_add,
        Option.some.injEq] at hc hd
      subst hc hd
      unfold BadPair; omega
    · simp only [List.getElem?_cons_succ, List.getElem?_cons_zero, Option.some.injEq] at hc
      subst hc
      unfold BadPair; omega
    · simp only [List.getElem?_cons_succ, List.getElem?_cons_zero, Option.some.injEq] at hc
      subst hc
      unfold BadPair; omega
    · simp only [List.getElem?_cons_succ] at hc hd
      exact ih i c d hc hd
  | four a b e f t hh he hf _ ih =>
    intro i c d hc hd
    unfold UTF8_4_head UTF8_tail at hh
    unfold UTF8_tail at he hf
    rcases i with _ | _ | _ | _ | i
    · simp only [List.getElem?_cons_zero, List.getElem?_cons_succ, zero_add,
        Option.some.injEq] at hc hd
      subst hc hd
      unfold BadPair; omega
    · simp only [List.getElem?_cons_succ, List.getElem?_cons_zero, Option.some.injEq] at hc
      subst hc
      unfold BadPair; omega
    · simp only [List.getElem?_cons_succ, List.getElem?_cons_zero, Option.some.injEq] at hc
      subst hc
      unfold BadPair; omega
    · simp only [List.getElem?_cons_succ, List.getElem?_cons_zero, Option.some.injEq] at hc
      subst hc
      unfold BadPair; omega
    · simp only [List.getElem?_cons_succ] at hc hd
      exact ih i c d hc hd

/-! ## Rejection of malformed input -/

theorem byte_range_length (env : Env) (buf : List Nat) (off : Int) (n : Nat) :
    (byte_range env buf off n).length = n := by
  simp [byte_range]

theorem byte_range_getElem? (env : Env) (buf : List Nat) (off : Int) (n j : Nat) (hj : j < n) :
    (byte_range env buf off n)[j]? = some (byte_at env buf (off + j)) := by
  simp [byte_range, List.getElem?_map, List.getElem?_range hj]

theorem byte_at_inside (env : Env) (buf : List Nat) (p : Nat) (hp : p < buf.length) :
    byte_at env buf (p : Int) = buf.getD p 0 := by
  unfold byte_at
  have h : (0 : Int) ≤ (p : Int) ∧ (p : Int) < (buf.length : Int) := by omega
  rw [if_pos h]
  simp

/-- Every position of the buffer from the rewound start on is in the delegated
range, at the index given by its distance from that start. -/
theorem byte_range_at (env : Env) (buf : List Nat) (start la p : Nat) (hla : (start : Int) - la ≤ p)
    (hp : p < buf.length) (hs : start ≤ buf.length) :
    (byte_range env buf ((start : Int) - la) (buf.length - start + la))[p + la - start]?
      = some (buf.getD p 0) := by
  rw [byte_range_getElem? _ _ _ _ _ (by omega)]
  have e : (start : Int) - la + ((p + la - start : Nat) : Int) = (p : Int) := by omega
  rw [e, byte_at_inside _ _ _ hp]

/-- A range that starts inside the buffer and ends at its end is a suffix of it. -/
theorem byte_range_eq_drop (env : Env) (buf : List Nat) (off n : Nat) (h : off + n = buf.length) :
    byte_range env buf (off : Int) n = buf.drop off := by
  apply List.ext_getElem?
  intro j
  rcases Nat.lt_or_ge j n with hj | hj
  · rw [byte_range_getElem? _ _ _ _ _ hj]
    have e : (off : Int) + (j : Int) = ((off + j : Nat) : Int) := by omega
    rw [e, byte_at_inside _ _ _ (by omega), List.getElem?_drop,
      List.getD_eq_getElem _ _ (show off + j < buf.length by omega),
      List.getElem?_eq_getElem (show off + j < buf.length by omega)]
  · rw [List.getElem?_eq_none (by rw [byte_range_length]; exact hj),
      List.getElem?_eq_none (by rw [List.length_drop]; omega)]

/-- An out-of-range byte inside the full chunks makes the function return -1. -/
theorem rejected_of_lane_error (utf8_naive : List Nat → Int) (env : Env) (buf : List Nat)
    (hb : Bytes buf) (p : Nat) (hp : p < 16 * (buf.length / 16))
    (h : lane_error (byte_before buf p 3) (byte_before buf p 2) (byte_before buf p 1)
      (buf.getD p 0)) :
    utf8_range_asciipath utf8_naive env buf = -1 := by
  rw [utf8_range_asciipath_eq, if_pos]
  refine ⟨⟨p % 16, Nat.mod_lt _ (by norm_num)⟩, ?_⟩
  rw [scan_error_iff buf hb]
  refine ⟨p / 16, by omega, ?_⟩
  have e : 16 * (p / 16) + p % 16 = p := Nat.div_add_mod p 16
  simpa only [e] using h

/-- A buffer that holds an illegal byte is never accepted. -/
theorem illegal_byte_rejected (utf8_naive : List Nat → Int) (env : Env) (buf : List Nat)
    (hn : NaiveCorrect utf8_naive) (hb : Bytes buf) (x : Nat) (hx : x ∈ buf)
    (hill : IllegalByte x) : utf8_range_asciipath utf8_naive env buf ≠ 0 := by
  obtain ⟨p, hp, hpx⟩ := List.getElem_of_mem hx
  have hget : buf.getD p 0 = x := by rw [List.getD_eq_getElem _ _ hp, hpx]
  rcases Nat.lt_or_ge p (16 * (buf.length / 16)) with hlt | hge
  · rw [rejected_of_lane_error utf8_naive env buf hb p hlt
      (by rw [hget]; exact lane_error_of_illegal _ _ _ _ hill)]
    decide
  · rw [utf8_range_asciipath_eq]
    split
    · decide
    · intro h0
      have hwf := (hn _).1 h0
      have hmod : buf.length % 16 = buf.length - 16 * (buf.length / 16) := by omega
      rw [hmod] at hwf
      have hmem := byte_range_at env buf (16 * (buf.length / 16))
        (lookahead env (scan_chunks buf (buf.length / 16)).1.input) p (by omega) hp (by omega)
      rw [hget] at hmem
      exact hwf.no_illegal x (List.getElem?_mem hmem) hill

/-- A buffer that holds a bad pair is never accepted. -/
theorem bad_pair_rejected (utf8_naive : List Nat → Int) (env : Env) (buf : List Nat)
    (hn : NaiveCorrect utf8_naive) (hb : Bytes buf) (q c d : Nat) (hc : buf[q]? = some c)
    (hd : buf[q + 1]? = some d) (hbad : BadPair c d) :
    utf8_range_asciipath utf8_naive env buf ≠ 0 := by
  have hq1 : q + 1 < buf.length := (List.getElem?_eq_some_iff.1 hd).1
  have hq : q < buf.length := by omega
  have hgc : buf.getD q 0 = c := by
    rw [List.getD_eq_getElem?_getD, hc]; rfl
  have hgd : buf.getD (q + 1) 0 = d := by
    rw [List.getD_eq_getElem?_getD, hd]; rfl
  have hc256 : c < 256 := hb c (List.getElem?_mem hc)
  rcases Nat.lt_or_ge (q + 1) (16 * (buf.length / 16)) with hlt | hge
  · rcases bad_pair_lane_error buf q c d hgc hgd hc256 hbad with h | h
    · rw [rejected_of_lane_error utf8_naive env buf hb q (by omega) h]
      decide
    · rw [rejected_of_lane_error utf8_naive env buf hb (q + 1) hlt h]
      decide
  · rw [utf8_range_asciipath_eq]
    split
    · decide
    · intro h0
      have hwf := (hn _).1 h0
      have hmod : buf.length % 16 = buf.length - 16 * (buf.length / 16) := by omega
      rw [hmod] at hwf
      generalize lookahead env (scan_chunks buf (buf.length / 16)).1.input = la at hwf
      have hd2 := byte_range_at env buf (16 * (buf.length / 16)) la (q + 1) (by omega) hq1
        (by omega)
      rw [hgd] at hd2
      rcases Nat.lt_or_ge (q + la) (16 * (buf.length / 16)) with hout | hin
      · have hla : la = 0 := by omega
        have hidx : q + 1 + la - 16 * (buf.length / 16) = 0 := by omega
        rw [hidx] at hd2
        revert hwf hd2
        generalize byte_range env buf ((16 * (buf.length / 16) : Nat) - (la : Int))
          (buf.length - 16 * (buf.length / 16) + la) = r
        intro hwf hd2
        cases r with
        | nil => simp at hd2
        | cons y t =>
          simp only [List.getElem?_cons_zero, Option.some.injEq] at hd2
          subst hd2
          apply hwf.head_not_tail
          unfold UTF8_tail
          rcases hbad with h | h | h | h <;> omega
      · have hc2 := byte_range_at env buf (16 * (buf.length / 16)) la q (by omega) hq (by omega)
        rw [hgc] at hc2
        have hidx : q + 1 + la - 16 * (buf.length / 16)
            = q + la - 16 * (buf.length / 16) + 1 := by omega
        rw [hidx] at hd2
        exact hwf.no_bad_pair _ c d hc2 hd2 hbad

/-! ## The lookahead and the environment -/

/-- The lookahead that the code computes is the same for every chunk: none of
the three words it compares overlaps `token4`. -/
theorem lookahead_ignores_chunk (env : Env) (v w : V128) : lookahead env v = lookahead env w := rfl

/-- A range inside the buffer does not depend on what surrounds the buffer. -/
theorem byte_range_inside (env env2 : Env) (buf : List Nat) (off : Int) (n : Nat)
    (h0 : 0 ≤ off) (h1 : off + n ≤ buf.length) :
    byte_range env buf off n = byte_range env2 buf off n := by
  unfold byte_range
  apply List.map_congr_left
  intro j hj
  have hj2 := List.mem_range.1 hj
  have hc : 0 ≤ off + (j : Int) ∧ off + (j : Int) < (buf.length : Int) := by omega
  simp only [byte_at, if_pos hc]

/-- Whatever the words past `token4` hold, some well-formed buffer is rejected:
for each possible lookahead there is a buffer whose last sequence starts
elsewhere than the rewound position. -/
theorem some_well_formed_buffer_rejected (env : Env) :
    ∃ buf, Bytes buf ∧ WellFormed buf ∧ utf8_range_asciipath utf8_naive_ref env buf ≠ 0 := by
  have hle := lookahead_le env _mm_setzero_si128
  have hcases : lookahead env _mm_setzero_si128 = 0 ∨ lookahead env _mm_setzero_si128 = 1 ∨
      lookahead env _mm_setzero_si128 = 2 ∨ lookahead env _mm_setzero_si128 = 3 := by omega
  rcases hcases with h | h | h | h
  · refine ⟨ascii_run 15 ++ [0xC3, 0xA9], by unfold Bytes; decide,
      (wellFormedB_iff _).1 (by decide), ?_⟩
    rw [utf8_range_asciipath_eq, lookahead_ignores_chunk env _ _mm_setzero_si128, h,
      byte_range_inside env env_zero _ _ _ (by decide) (by decide)]
    decide
  · refine ⟨ascii_run 14 ++ [0xC3, 0xA9], by unfold Bytes; decide,
      (wellFormedB_iff _).1 (by decide), ?_⟩
    rw [utf8_range_asciipath_eq, lookahead_ignores_chunk env _ _mm_setzero_si128, h,
      byte_range_inside env env_zero _ _ _ (by decide) (by decide)]
    decide
  · refine ⟨ascii_run 13 ++ [0xC3, 0xA9, 0x61], by unfold Bytes; decide,
      (wellFormedB_iff _).1 (by decide), ?_⟩
    rw [utf8_range_asciipath_eq, lookahead_ignores_chunk env _ _mm_setzero_si128, h,
      byte_range_inside env env_zero _ _ _ (by decide) (by decide)]
    decide
  · refine ⟨ascii_run 12 ++ [0xC3, 0xA9, 0x61, 0x61], by unfold Bytes; decide,
      (wellFormedB_iff _).1 (by decide), ?_⟩
    rw [utf8_range_asciipath_eq, lookahead_ignores_chunk env _ _mm_setzero_si128, h,
      byte_range_inside env env_zero _ _ _ (by decide) (by decide)]
    decide

/-- A well-formed byte string does not end with a lone lead byte `C2`, nor with
`E0 A0`. -/
theorem WellFormed.not_truncated {l : List Nat} (h : WellFormed l) :
    ∀ t, l ≠ t ++ [0xC2] ∧ l ≠ t ++ [0xE0, 0xA0] := by
  induction h with
  | nil => intro t; constructor <;> simp
  | one a t0 ha _ ih =>
    intro t
    rcases t with _ | ⟨x, t⟩
    · constructor
      · intro h; simp at h; omega
      · intro h; simp at h; omega
    · constructor
      · intro h
        simp only [List.cons_append, List.cons.injEq] at h
        exact (ih t).1 h.2
      · intro h
        simp only [List.cons_append, List.cons.injEq] at h
        exact (ih t).2 h.2
  | two a b t0 h1 h2 hb _ ih =>
    intro t
    unfold UTF8_tail at hb
    rcases t with _ | ⟨x, _ | ⟨y, t⟩⟩
    · constructor
      · intro h; simp at h
      · intro h; simp at h; omega
    · constructor
      · intro h; simp at h; omega
      · intro h; simp at h; omega
    · constructor
      · intro h
        simp only [List.cons_append, List.cons.injEq] at h
        exact (ih t).1 h.2.2
      · intro h
        simp only [List.cons_append, List.cons.injEq] at h
        exact (ih t).2 h.2.2
  | three a b c t0 hh hc _ ih =>
    intro t
    unfold UTF8_3_head UTF8_tail at hh
    unfold UTF8_tail at hc
    rcases t with _ | ⟨x, _ | ⟨y, _ | ⟨z, t⟩⟩⟩
    · constructor
      · intro h; simp at h
      · intro h; simp at h
    · constructor
      · intro h; simp at h
      · intro h; simp at h; omega
    · constructor
      · intro h; simp at h; omega
      · intro h; simp at h; omega
    · constructor
      · intro h
        simp only [List.cons_append, List.cons.injEq] at h
        exact (ih t).1 h.2.2.2
      · intro h
        simp only [List.cons_append, List.cons.injEq] at h
        exact (ih t).2 h.2.2.2
  | four a b c d t0 hh hc hd _ ih =>
    intro t
    unfold UTF8_4_head UTF8_tail at hh
    unfold UTF8_tail at hc hd
    rcases t with _ | ⟨x, _ | ⟨y, _ | ⟨z, _ | ⟨w, t⟩⟩⟩⟩
    · constructor
      · intro h; simp at h
      · intro h; simp at h
    · constructor
      · intro h; simp at h
      · intro h; simp at h
    · constructor
      · intro h; simp at h
      · intro h; simp at h; omega
    · constructor
      · intro h; simp at h; omega
      · intro h; simp at h; omega
    · constructor
      · intro h
        simp only [List.cons_append, List.cons.injEq] at h
        exact (ih t).1 h.2.2.2.2
      · intro h
        simp only [List.cons_append, List.cons.injEq] at h
        exact (ih t).2 h.2.2.2.2

/-- The range handed to the scalar validator ends with the bytes of the buffer
that follow the last full chunk. -/
theorem byte_range_tail (env : Env) (buf : List Nat) (la : Nat) :
    ∃ t, byte_range env buf ((16 * (buf.length / 16) : Nat) - (la : Int)) (buf.length % 16 + la)
      = t ++ buf.drop (16 * (buf.length / 16)) := by
  refine ⟨byte_range env buf ((16 * (buf.length / 16) : Nat) - (la : Int)) la, ?_⟩
  apply List.ext_getElem?
  intro j
  rcases Nat.lt_or_ge j la with hj | hj
  · rw [List.getElem?_append_left (by rw [byte_range_length]; exact hj),
      byte_range_getElem? _ _ _ _ _ (by omega), byte_range_getElem? _ _ _ _ _ hj]
  · rw [List.getElem?_append_right (by rw [byte_range_length]; exact hj), byte_range_length]
    rcases Nat.lt_or_ge j (buf.length % 16 + la) with hj2 | hj2
    · rw [byte_range_getElem? _ _ _ _ _ hj2]
      have e : ((16 * (buf.length / 16) : Nat) : Int) - (la : Int) + (j : Int)
          = ((16 * (buf.length / 16) + (j - la) : Nat) : Int) := by omega
      rw [e, byte_at_inside _ _ _ (by omega), List.getElem?_drop,
        List.getD_eq_getElem _ _ (show 16 * (buf.length / 16) + (j - la) < buf.length by omega),
        List.getElem?_eq_getElem (show 16 * (buf.length / 16) + (j - la) < buf.length by omega)]
    · rw [List.getElem?_eq_none (by rw [byte_range_length]; exact hj2),
        List.getElem?_eq_none (by rw [List.length_drop]; omega)]

/-- The two buffers that the specification lists as truncated are rejected
whatever the lookahead: sixteen ASCII bytes followed by `C2`, and `E0 A0`. -/
theorem listed_truncations_rejected (utf8_naive : List Nat → Int) (env : Env)
    (hn : NaiveCorrect utf8_naive) :
    utf8_range_asciipath utf8_naive env (ascii_run 16 ++ [0xC2]) ≠ 0 ∧
    utf8_range_asciipath utf8_naive env [0xE0, 0xA0] ≠ 0 := by
  constructor
  · rw [utf8_range_asciipath_eq]
    split
    · decide
    · intro h0
      obtain ⟨t, ht⟩ := byte_range_tail env (ascii_run 16 ++ [0xC2])
        (lookahead env (scan_chunks (ascii_run 16 ++ [0xC2])
          ((ascii_run 16 ++ [0xC2]).length / 16)).1.input)
      exact (((hn _).1 h0).not_truncated t).1 ht
  · rw [utf8_range_asciipath_eq]
    split
    · decide
    · intro h0
      obtain ⟨t, ht⟩ := byte_range_tail env [0xE0, 0xA0]
        (lookahead env (scan_chunks [0xE0, 0xA0] (([0xE0, 0xA0] : List Nat).length / 16)).1.input)
      exact (((hn _).1 h0).not_truncated t).2 ht

/-! ## The range index of a chunk and the range test -/

/-- The classifier is the range test applied, lane by lane, to `chunk_range`. -/
theorem check_utf8_bytes_eq_range (input : V128) (previous : processed_utf_bytes)
    (has_error : V128) :
    (check_utf8_bytes input previous has_error).2
      = _mm_or_si128
          (_mm_or_si128 has_error
            (_mm_cmplt_epi8 input
              (_mm_shuffle_epi8 (_mm_lddqu_si128 _range_min_tbl) (chunk_range input previous))))
          (_mm_cmpgt_epi8 input
            (_mm_shuffle_epi8 (_mm_lddqu_si128 _range_max_tbl) (chunk_range input previous))) :=
  rfl

/-- The range index of a lane as a function of its byte and of the three bytes
before it. -/
theorem chunk_range_lane (input : V128) (previous : processed_utf_bytes)
    (hin : ∀ j, input j < 256)
    (hcarry : previous.first_len = fun j => first_len_of (previous.input j)) (i : Fin 16) :
    chunk_range input previous i
      = range_index (_mm_alignr_epi8 input previous.input 13 i)
          (_mm_alignr_epi8 input previous.input 14 i)
          (_mm_alignr_epi8 input previous.input 15 i) (input i) := by
  simp only [chunk_range, shuffle_high_nibble _ input hin, hcarry]
  simp only [_mm_or_si128, shuffle_lane, _mm_add_epi8,
    _mm_subs_epu8, _mm_set1_epi8, _mm_adds_epu8, _mm_sub_epi8, _mm_alignr_epi8,
    range_index, range_adjust, first_len_of]
  have h1 : i.val + 15 - 16 < 16 := by omega
  have h2 : i.val + 14 - 16 < 16 := by omega
  have h3 : i.val + 13 - 16 < 16 := by omega
  have k1 : i.val - 1 < 16 := by omega
  have k2 : i.val - 2 < 16 := by omega
  have k3 : i.val - 3 < 16 := by omega
  by_cases c1 : i.val + 15 < 16 <;> by_cases c2 : i.val + 14 < 16 <;>
    by_cases c3 : i.val + 13 < 16 <;> simp [c1, c2, c3, h1, h2, h3, k1, k2, k3]

/-- A lane of the new error mask is clear exactly when it was clear before and
the byte passes the range test of its range index. -/
theorem check_utf8_bytes_lane_clear (input : V128) (previous : processed_utf_bytes)
    (has_error : V128) (i : Fin 16) :
    (check_utf8_bytes input previous has_error).2 i = 0 ↔
      has_error i = 0 ∧ ¬ range_flags (chunk_range input previous i) (input i) := by
  rw [check_utf8_bytes_eq_range]
  simp only [_mm_or_si128, _mm_cmplt_epi8, _mm_cmpgt_epi8, shuffle_lane, lor_eq_zero_iff,
    range_flags]
  constructor
  · rintro ⟨⟨h0, h1⟩, h2⟩
    refine ⟨h0, ?_⟩
    rintro (h | h)
    · rw [if_pos h] at h1; omega
    · rw [if_pos h] at h2; omega
  · rintro ⟨h0, h⟩
    push_neg at h
    refine ⟨⟨h0, ?_⟩, ?_⟩
    · rw [if_neg (by have := h.1; omega)]
    · rw [if_neg (by have := h.2; omega)]

theorem lane_error_iff_range_flags (c3 c2 c1 d : Nat) :
    lane_error c3 c2 c1 d ↔ range_flags (range_index c3 c2 c1 d) d := Iff.rfl

set_option maxRecDepth 1000000 in
/-- The range test on every index and byte value, by enumeration. -/
theorem range_flags_table : ∀ (r : Fin 16) (b : Fin 256),
    (9 ≤ r.val → range_flags r.val b.val) ∧
    (r.val ≤ 8 → (¬ range_flags r.val b.val ↔ documented_window r.val b.val)) := by
  decide

theorem chunk_range_lt (input : V128) (previous : processed_utf_bytes) (i : Fin 16) :
    chunk_range input previous i < 256 := by
  simp only [chunk_range, _mm_add_epi8]
  exact Nat.mod_lt _ (by norm_num)

/-- The entry that a shuffle fetches depends on bit 7 and on the low nibble of
the index byte only. -/
theorem shuffle_entry_reduce (tbl : List Nat) (r : Nat) :
    shuffle_entry tbl r = shuffle_entry tbl (if r / 128 % 2 = 1 then 128 else r % 16) := by
  unfold shuffle_entry
  by_cases h : r / 128 % 2 = 1
  · simp [h]
  · have h2 : r % 16 / 128 % 2 = 0 := by omega
    simp [h, h2]

set_option maxRecDepth 1000000 in
theorem range_flags_of_illegal_table : ∀ (q : Fin 17) (d : Fin 256), IllegalByte d.val →
    range_flags (if q.val = 16 then 128 else q.val) d.val := by
  unfold IllegalByte
  decide

/-- An illegal byte fails the range test whatever the index byte is. -/
theorem range_flags_of_illegal (r d : Nat) (h : IllegalByte d) : range_flags r d := by
  have hd : d < 256 := by rcases h with h | h | h <;> omega
  unfold range_flags
  rw [shuffle_entry_reduce _range_min_tbl, shuffle_entry_reduce _range_max_tbl]
  by_cases hb : r / 128 % 2 = 1
  · simp only [hb, if_true]
    exact range_flags_of_illegal_table ⟨16, by omega⟩ ⟨d, hd⟩ h
  · simp only [hb, if_false]
    have := range_flags_of_illegal_table ⟨r % 16, by omega⟩ ⟨d, hd⟩ h
    have hne : ¬ (r % 16 = 16) := by omega
    simpa only [hne, if_false] using this

theorem first_len_of_eq_zero (c : Nat) (h : c / 16 < 0xC) : first_len_of c = 0 := by
  unfold first_len_of
  generalize c / 16 = n at h
  interval_cases n <;> decide

set_option maxRecDepth 1000000 in
/-- After a special lead byte that nothing overlaps, the range test accepts
exactly the narrowed window. -/
theorem special_lane_table : ∀ d : Fin 256,
    (¬ range_flags (range_index 0 0 0xE0 d.val) d.val ↔ (0xA0 ≤ d.val ∧ d.val ≤ 0xBF)) ∧
    (¬ range_flags (range_index 0 0 0xED d.val) d.val ↔ (0x80 ≤ d.val ∧ d.val ≤ 0x9F)) ∧
    (¬ range_flags (range_index 0 0 0xF0 d.val) d.val ↔ (0x90 ≤ d.val ∧ d.val ≤ 0xBF)) ∧
    (¬ range_flags (range_index 0 0 0xF4 d.val) d.val ↔ (0x80 ≤ d.val ∧ d.val ≤ 0x8F)) ∧
    (d.val < 0xC0 → range_index 0 0 0xE0 d.val = 4 ∧ range_index 0 0 0xED d.val = 5 ∧
      range_index 0 0 0xF0 d.val = 6 ∧ range_index 0 0 0xF4 d.val = 7) := by
  decide

/-- The range index depends on the bytes two and three positions back only
through their length classification. -/
theorem range_index_congr (c3 c2 c1 d e3 e2 : Nat) (h2 : first_len_of c2 = first_len_of e2)
    (h3 : first_len_of c3 = first_len_of e3) :
    range_index c3 c2 c1 d = range_index e3 e2 c1 d := by
  unfold range_index
  rw [h2, h3]

/-! ## The ASCII fast path -/

set_option maxRecDepth 1000000 in
theorem high_bit_clear_table : ∀ x : Fin 256, ((x.val ||| x.val) &&& (0x80 % 256) = 0 ↔ x.val < 0x80) := by
  decide

/-- The test that selects the ASCII fast path succeeds exactly on the chunks
whose bytes are all below `80`. -/
theorem ascii_test_iff (in_ : V128) (hin : ∀ j, in_ j < 256) :
    _mm_testz_si128 (_mm_or_si128 in_ in_) (_mm_set1_epi8 0x80) = 1 ↔ ∀ j, in_ j < 0x80 := by
  unfold _mm_testz_si128
  simp only [_mm_or_si128, _mm_set1_epi8]
  constructor
  · intro h j
    by_contra hj
    have : ¬ ∀ i : Fin 16, (in_ i ||| in_ i) &&& (0x80 % 256) = 0 := by
      intro hall
      exact hj ((high_bit_clear_table ⟨in_ j, hin j⟩).1 (hall j))
    rw [if_neg this] at h
    omega
  · intro h
    rw [if_pos]
    intro i
    exact (high_bit_clear_table ⟨in_ i, hin i⟩).2 (h i)

/-- On an all-ASCII chunk `check_utf8` leaves the carry state as it is and adds
to the mask the lanes of the carried `first_len` that exceed 9, ..., 9, 2, 1, 0. -/
theorem check_utf8_ascii (in_ : V128) (previous : processed_utf_bytes) (has_error : V128)
    (hascii : ∀ j, in_ j < 0x80) :
    check_utf8 in_ previous has_error
      = (previous,
          _mm_or_si128
            (_mm_cmpgt_epi8 previous.first_len
              (_mm_setr_epi8 [9, 9, 9, 9, 9, 9, 9, 9, 9, 9, 9, 9, 9, 2, 1, 0]))
            has_error) := by
  unfold check_utf8
  simp only
  rw [if_pos ((ascii_test_iff in_ (fun j => by have := hascii j; omega)).2 hascii)]

/-- On any other chunk `check_utf8` is `check_utf8_bytes`. -/
theorem check_utf8_non_ascii (in_ : V128) (previous : processed_utf_bytes) (has_error : V128)
    (hin : ∀ j, in_ j < 256) (h : ¬ ∀ j, in_ j < 0x80) :
    check_utf8 in_ previous has_error = check_utf8_bytes in_ previous has_error := by
  unfold check_utf8
  simp only
  rw [if_neg (fun c => h ((ascii_test_iff in_ hin).1 c))]

/-- The threshold vector of the fast path, lane by lane. -/
theorem ascii_threshold_lane (i : Fin 16) :
    _mm_setr_epi8 [9, 9, 9, 9, 9, 9, 9, 9, 9, 9, 9, 9, 9, 2, 1, 0] i
      = if i.val ≤ 12 then 9 else if i.val = 13 then 2 else if i.val = 14 then 1 else 0 := by
  fin_cases i <;> rfl

/-- A lane of the mask after the fast path. -/
theorem check_utf8_ascii_lane (in_ : V128) (previous : processed_utf_bytes) (has_error : V128)
    (hascii : ∀ j, in_ j < 0x80) (i : Fin 16) :
    (check_utf8 in_ previous has_error).2 i ≠ 0 ↔
      has_error i ≠ 0 ∨
      toInt8 (previous.first_len i) >
        (if i.val ≤ 12 then 9 else if i.val = 13 then 2 else if i.val = 14 then 1 else 0 : Int) := by
  rw [check_utf8_ascii in_ previous has_error hascii]
  simp only [_mm_or_si128, _mm_cmpgt_epi8, ascii_threshold_lane, Ne, lor_eq_zero_iff]
  have ht : toInt8 (if i.val ≤ 12 then 9 else if i.val = 13 then 2 else if i.val = 14 then 1 else 0)
      = (if i.val ≤ 12 then 9 else if i.val = 13 then 2 else if i.val = 14 then 1 else 0 : Int) := by
    split_ifs <;> decide
  rw [ht]
  constructor
  · intro h
    by_contra hcon
    push_neg at hcon
    apply h
    refine ⟨?_, hcon.1⟩
    rw [if_neg (by have := hcon.2; omega)]
  · rintro (h | h) ⟨h1, h2⟩
    · exact h h2
    · rw [if_pos h] at h1; omega

/-! ## Carry states that announce nothing past their chunk -/

set_option maxRecDepth 1000000 in
/-- The adjustment `range2` is 2 after `E0`, 3 after `ED` and `F0`, 4 after `F4`
and 0 after every other byte. -/
theorem range_adjust_table : ∀ c : Fin 256,
    range_adjust c.val
      = if c.val = 0xE0 then 2 else if c.val = 0xED then 3 else if c.val = 0xF0 then 3
        else if c.val = 0xF4 then 4 else 0 := by
  decide

set_option maxRecDepth 1000000 in
theorem first_len_of_table : ∀ c : Fin 256,
    first_len_of c.val
      = if c.val < 0xC0 then 0 else if c.val < 0xE0 then 1 else if c.val < 0xF0 then 2 else 3 := by
  decide

theorem range_adjust_eq_zero (c : Nat) (hc : c < 256) (h : first_len_of c = 0) :
    range_adjust c = 0 := by
  have h1 := range_adjust_table ⟨c, hc⟩
  have h2 := first_len_of_table ⟨c, hc⟩
  simp only at h1 h2
  rw [h1]
  rw [h] at h2
  split_ifs at h2 ⊢ <;> omega

/-- The range index is a function of the length classifications of the three
preceding bytes, of the adjustment of the byte just before, and of the byte. -/
theorem range_index_congr4 (c3 c2 c1 e3 e2 e1 d : Nat)
    (h1 : first_len_of c1 = first_len_of e1) (ha : range_adjust c1 = range_adjust e1)
    (h2 : first_len_of c2 - 1 = first_len_of e2 - 1)
    (h3 : first_len_of c3 - 2 = first_len_of e3 - 2) :
    range_index c3 c2 c1 d = range_index e3 e2 e1 d := by
  unfold range_index
  rw [h1, ha, h2, h3]

/-- The bytes that `_mm_alignr_epi8` takes from its second argument. -/
theorem alignr_low (a b : V128) (n : Nat) (i : Fin 16) (h : i.val + n < 16) :
    _mm_alignr_epi8 a b n i = b ⟨i.val + n, h⟩ := by
  unfold _mm_alignr_epi8
  rw [dif_pos h]

/-- The bytes that `_mm_alignr_epi8` takes from its first argument. -/
theorem alignr_high (a b : V128) (n : Nat) (i : Fin 16) (h : ¬ i.val + n < 16) (hn : n ≤ 16) :
    _mm_alignr_epi8 a b n i = a ⟨i.val + n - 16, by omega⟩ := by
  unfold _mm_alignr_epi8
  rw [dif_neg h, dif_pos (by omega)]

/-- A carry state whose last three lanes announce nothing past the chunk acts on
the next chunk like any other such carry state: the range indices agree. -/
theorem chunk_range_closed_carry (input : V128) (p q : processed_utf_bytes)
    (hin : ∀ j, input j < 256) (hp : CarryOf p) (hq : CarryOf q)
    (hpc : ¬ ends_mid_sequence p) (hqc : ¬ ends_mid_sequence q) (i : Fin 16) :
    chunk_range input p i = chunk_range input q i := by
  rw [chunk_range_lane input p hin hp.2 i, chunk_range_lane input q hin hq.2 i]
  unfold ends_mid_sequence at hpc hqc
  rw [hp.2] at hpc
  rw [hq.2] at hqc
  simp only at hpc hqc
  have fl_le := first_len_of_le
  apply range_index_congr4
  · by_cases h : i.val + 15 < 16
    · rw [alignr_low _ _ _ _ h, alignr_low _ _ _ _ h]
      have e : (⟨i.val + 15, h⟩ : Fin 16) = 15 := by apply Fin.ext; simp only; omega
      rw [e]; omega
    · rw [alignr_high _ _ _ _ h (by omega), alignr_high _ _ _ _ h (by omega)]
  · by_cases h : i.val + 15 < 16
    · rw [alignr_low _ _ _ _ h, alignr_low _ _ _ _ h]
      have e : (⟨i.val + 15, h⟩ : Fin 16) = 15 := by apply Fin.ext; simp only; omega
      rw [e, range_adjust_eq_zero _ (hp.1 15) (by omega),
        range_adjust_eq_zero _ (hq.1 15) (by omega)]
    · rw [alignr_high _ _ _ _ h (by omega), alignr_high _ _ _ _ h (by omega)]
  · by_cases h : i.val + 14 < 16
    · rw [alignr_low _ _ _ _ h, alignr_low _ _ _ _ h]
      have e : (⟨i.val + 14, h⟩ : Fin 16) = 14 ∨ (⟨i.val + 14, h⟩ : Fin 16) = 15 := by
        rcases Nat.lt_or_ge i.val 1 with c | c
        · left; apply Fin.ext; simp only; omega
        · right; apply Fin.ext; simp only; omega
      rcases e with e | e <;> rw [e] <;> omega
    · rw [alignr_high _ _ _ _ h (by omega), alignr_high _ _ _ _ h (by omega)]
  · by_cases h : i.val + 13 < 16
    · rw [alignr_low _ _ _ _ h, alignr_low _ _ _ _ h]
      have e : (⟨i.val + 13, h⟩ : Fin 16) = 13 ∨ (⟨i.val + 13, h⟩ : Fin 16) = 14 ∨
          (⟨i.val + 13, h⟩ : Fin 16) = 15 := by
        rcases Nat.lt_or_ge i.val 1 with c | c
        · left; apply Fin.ext; simp only; omega
        · rcases Nat.lt_or_ge i.val 2 with c2 | c2
          · right; left; apply Fin.ext; simp only; omega
          · right; right; apply Fin.ext; simp only; omega
      rcases e with e | e | e <;> rw [e] <;> omega
    · rw [alignr_high _ _ _ _ h (by omega), alignr_high _ _ _ _ h (by omega)]

theorem toInt8_small (x : Nat) (h : x < 128) : toInt8 x = (x : Int) := by
  unfold toInt8
  have e : x % 256 = x := Nat.mod_eq_of_lt (by omega)
  rw [e, if_pos h]

theorem alignr_lt (a b : V128) (n B : Nat) (hn : n ≤ 16) (ha : ∀ j, a j < B) (hb : ∀ j, b j < B)
    (i : Fin 16) : _mm_alignr_epi8 a b n i < B := by
  by_cases h : i.val + n < 16
  · rw [alignr_low _ _ _ _ h]; exact hb _
  · rw [alignr_high _ _ _ _ h hn]; exact ha _

theorem first_range_of_cont (d : Nat) (h : d < 0xC0) : _first_range_tbl.getD (d / 16) 0 = 0 := by
  have h1 : d / 16 < 12 := by omega
  generalize d / 16 = n at h1
  interval_cases n <;> decide

theorem cont_index_bounds : ∀ f : Fin 4, ∀ g : Fin 4, ∀ h : Fin 4, ∀ b : Fin 5,
    ((0 ||| f.val ||| (g.val - 1) ||| (h.val - 2)) + b.val) % 256 ≤ 7 ∧
    ((1 ≤ f.val ∨ 2 ≤ g.val ∨ 3 ≤ h.val) →
      1 ≤ ((0 ||| f.val ||| (g.val - 1) ||| (h.val - 2)) + b.val) % 256) ∧
    ((f.val = 0 ∧ g.val ≤ 1 ∧ h.val ≤ 2 ∧ b.val = 0) →
      ((0 ||| f.val ||| (g.val - 1) ||| (h.val - 2)) + b.val) % 256 = 0) := by
  decide

/-- The range index of a byte below `C0`: at most 7, and at least 1 when a lead
byte before it still reaches it. -/
theorem range_index_cont (c3 c2 c1 d : Nat) (hd : d < 0xC0) :
    range_index c3 c2 c1 d ≤ 7 ∧
    ((1 ≤ first_len_of c1 ∨ 2 ≤ first_len_of c2 ∨ 3 ≤ first_len_of c3) →
      1 ≤ range_index c3 c2 c1 d) ∧
    ((first_len_of c1 = 0 ∧ first_len_of c2 ≤ 1 ∧ first_len_of c3 ≤ 2 ∧ range_adjust c1 = 0) →
      range_index c3 c2 c1 d = 0) := by
  unfold range_index
  rw [first_range_of_cont d hd]
  exact cont_index_bounds ⟨first_len_of c1, by have := first_len_of_le c1; omega⟩
    ⟨first_len_of c2, by have := first_len_of_le c2; omega⟩
    ⟨first_len_of c3, by have := first_len_of_le c3; omega⟩
    ⟨range_adjust c1, by have := range_adjust_le c1; omega⟩

/-- An ASCII byte passes the range test of index 0 and fails that of every
index 1 to 15. -/
theorem range_flags_ascii (r d : Nat) (hr : r ≤ 15) (hd : d < 0x80) :
    range_flags r d ↔ 1 ≤ r := by
  have key := range_flags_table ⟨r, by omega⟩ ⟨d, by omega⟩
  simp only at key
  rcases Nat.lt_or_ge r 9 with h | h
  · have k := key.2 (by omega)
    unfold documented_window at k
    constructor
    · intro hf
      by_contra hz
      have : r = 0 := by omega
      exact (k.2 (Or.inl ⟨this, by omega⟩)) hf
    · intro h1
      by_contra hf
      have := k.1 hf
      omega
  · exact ⟨fun _ => by omega, fun _ => key.1 h⟩

/-- Under a carry state that announces nothing past its chunk, every lane of an
all-ASCII chunk has range index 0. -/
theorem chunk_range_ascii_closed (input : V128) (p : processed_utf_bytes)
    (hascii : ∀ j, input j < 0x80) (hp : CarryOf p) (hpc : ¬ ends_mid_sequence p) (i : Fin 16) :
    chunk_range input p i = 0 := by
  have hin : ∀ j, input j < 256 := fun j => by have := hascii j; omega
  have hz : CarryOf { input := _mm_setzero_si128, first_len := _mm_setzero_si128 } :=
    ⟨fun j => by simp [_mm_setzero_si128], by
      funext j
      have : first_len_of 0 = 0 := by decide
      simp [_mm_setzero_si128, this]⟩
  have hzc : ¬ ends_mid_sequence { input := _mm_setzero_si128, first_len := _mm_setzero_si128 } := by
    decide
  rw [chunk_range_closed_carry input p _ hin hp hz hpc hzc i, chunk_range_lane input _ hin hz.2 i]
  dsimp only
  have hzero : ∀ j : Fin 16, _mm_setzero_si128 j < 0x80 := fun j => by simp [_mm_setzero_si128]
  have a1 := alignr_lt input _mm_setzero_si128 15 0x80 (by omega) hascii hzero i
  have a2 := alignr_lt input _mm_setzero_si128 14 0x80 (by omega) hascii hzero i
  have a3 := alignr_lt input _mm_setzero_si128 13 0x80 (by omega) hascii hzero i
  have f1 := first_len_of_eq_zero _ (show _mm_alignr_epi8 input _mm_setzero_si128 15 i / 16 < 0xC by omega)
  have f2 := first_len_of_eq_zero _ (show _mm_alignr_epi8 input _mm_setzero_si128 14 i / 16 < 0xC by omega)
  have f3 := first_len_of_eq_zero _ (show _mm_alignr_epi8 input _mm_setzero_si128 13 i / 16 < 0xC by omega)
  exact (range_index_cont _ _ _ _ (by have := hascii i; omega)).2.2
    ⟨f1, by omega, by omega, range_adjust_eq_zero _ (by omega) f1⟩

/-- On an all-ASCII chunk `check_utf8_bytes` raises an error exactly when the
carried chunk ended inside a sequence. -/
theorem check_utf8_bytes_ascii_error_iff (input : V128) (p : processed_utf_bytes)
    (hascii : ∀ j, input j < 0x80) (hp : CarryOf p) :
    (∃ i, (check_utf8_bytes input p _mm_setzero_si128).2 i ≠ 0) ↔ ends_mid_sequence p := by
  have hin : ∀ j, input j < 256 := fun j => by have := hascii j; omega
  constructor
  · rintro ⟨i, hi⟩
    by_contra hpc
    apply hi
    rw [check_utf8_bytes_lane_clear, chunk_range_ascii_closed input p hascii hp hpc i]
    exact ⟨rfl, fun hf => by have := (range_flags_ascii 0 _ (by omega) (hascii i)).1 hf; omega⟩
  · intro hm
    refine ⟨0, fun h0 => ?_⟩
    have hclear := ((check_utf8_bytes_lane_clear input p _mm_setzero_si128 0).1 h0).2
    rw [chunk_range_lane input p hin hp.2 0] at hclear
    have hb := range_index_cont (_mm_alignr_epi8 input p.input 13 0)
      (_mm_alignr_epi8 input p.input 14 0) (_mm_alignr_epi8 input p.input 15 0) (input 0)
      (by have := hascii 0; omega)
    apply hclear
    rw [range_flags_ascii _ _ (by omega) (hascii 0)]
    apply hb.2.1
    unfold ends_mid_sequence at hm
    rw [hp.2] at hm
    simp only at hm
    have e15 : _mm_alignr_epi8 input p.input 15 0 = p.input 15 := rfl
    have e14 : _mm_alignr_epi8 input p.input 14 0 = p.input 14 := rfl
    have e13 : _mm_alignr_epi8 input p.input 13 0 = p.input 13 := rfl
    rw [e15, e14, e13]
    exact hm

/-- On an all-ASCII chunk the fast path raises an error exactly when the carried
chunk ended inside a sequence. -/
theorem check_utf8_ascii_error_iff (input : V128) (p : processed_utf_bytes)
    (hascii : ∀ j, input j < 0x80) (hp : CarryOf p) :
    (∃ i, (check_utf8 input p _mm_setzero_si128).2 i ≠ 0) ↔ ends_mid_sequence p := by
  have hfl : ∀ j, toInt8 (p.first_len j) = (p.first_len j : Int) := by
    intro j
    apply toInt8_small
    rw [hp.2]
    have := first_len_of_le (p.input j)
    simp only
    omega
  have hle : ∀ j, p.first_len j ≤ 3 := by
    intro j
    rw [hp.2]
    exact first_len_of_le _
  unfold ends_mid_sequence
  constructor
  · rintro ⟨i, hi⟩
    rw [check_utf8_ascii_lane input p _ hascii i, hfl i] at hi
    rcases hi with hi | hi
    · exact absurd rfl hi
    · have h3 := hle i
      have hi16 := i.isLt
      split_ifs at hi with c1 c2 c3
      · omega
      · have e : i = 13 := by apply Fin.ext; simpa using c2
        subst e; right; right; omega
      · have e : i = 14 := by apply Fin.ext; simpa using c3
        subst e; right; left; omega
      · have e : i = 15 := by
          apply Fin.ext
          have hv : ((15 : Fin 16) : Nat) = 15 := rfl
          rw [hv]; omega
        subst e; left; omega
  · rintro (h | h | h)
    · refine ⟨15, ?_⟩
      rw [check_utf8_ascii_lane input p _ hascii 15, hfl 15]
      right
      have hv : ((15 : Fin 16) : Nat) = 15 := rfl
      rw [hv]
      norm_num
      omega
    · refine ⟨14, ?_⟩
      rw [check_utf8_ascii_lane input p _ hascii 14, hfl 14]
      right
      have hv : ((14 : Fin 16) : Nat) = 14 := rfl
      rw [hv]
      norm_num
      omega
    · refine ⟨13, ?_⟩
      rw [check_utf8_ascii_lane input p _ hascii 13, hfl 13]
      right
      have hv : ((13 : Fin 16) : Nat) = 13 := rfl
      rw [hv]
      norm_num
      omega

/-! ## Lemmas on the reported position -/

theorem shift_pos_le (k r n : Nat) (h : r ≤ n) : shift_pos k r ≤ n + k := by
  unfold shift_pos
  split <;> omega

/-- The reported position lies inside the range. -/
theorem first_invalid_pos_le (l : List Nat) : first_invalid_pos l ≤ l.length := by
  induction l using first_invalid_pos.induct with
  | case1 => simp [first_invalid_pos]
  | case2 a t ha ih =>
    rw [first_invalid_pos.eq_def]
    simp only [if_pos ha, List.length_cons]
    exact shift_pos_le 1 _ _ ih
  | case3 a ha =>
    rw [first_invalid_pos.eq_def]
    simp only [if_neg ha, List.length_cons, List.length_nil]
    omega
  | case4 a ha b t h2 hb ih =>
    rw [first_invalid_pos.eq_def]
    simp only [if_neg ha, if_pos h2, if_pos hb, List.length_cons]
    exact shift_pos_le 2 _ _ ih
  | case5 a ha b t h2 hb =>
    rw [first_invalid_pos.eq_def]
    simp only [if_neg ha, if_pos h2, if_neg hb, List.length_cons]
    omega
  | case6 a ha b h2 =>
    rw [first_invalid_pos.eq_def]
    simp only [if_neg ha, if_neg h2, List.length_cons]
    omega
  | case7 a ha b h2 c t h3 hh ih =>
    rw [first_invalid_pos.eq_def]
    simp only [if_neg ha, if_neg h2, if_pos h3, if_pos hh, List.length_cons]
    exact shift_pos_le 3 _ _ ih
  | case8 a ha b h2 c t h3 hh =>
    rw [first_invalid_pos.eq_def]
    simp only [if_neg ha, if_neg h2, if_pos h3, if_neg hh, List.length_cons]
    omega
  | case9 a ha b h2 c h3 =>
    rw [first_invalid_pos.eq_def]
    simp only [if_neg ha, if_neg h2, if_neg h3, List.length_cons]
    omega
  | case10 a ha b h2 c h3 d t hh ih =>
    rw [first_invalid_pos.eq_def]
    simp only [if_neg ha, if_neg h2, if_neg h3, if_pos hh, List.length_cons]
    exact shift_pos_le 4 _ _ ih
  | case11 a ha b h2 c h3 d t hh =>
    rw [first_invalid_pos.eq_def]
    simp only [if_neg ha, if_neg h2, if_neg h3, if_neg hh, List.length_cons]
    omega

theorem shift_pos_shift_pos (j k r : Nat) : shift_pos j (shift_pos k r) = shift_pos (k + j) r := by
  unfold shift_pos
  by_cases h : r = 0
  · simp [h]
  · have h2 : r + k ≠ 0 := by omega
    simp only [h, h2, if_false]
    omega

/-- Ahead of a well-formed byte string the reported position moves by its
length. -/
theorem first_invalid_pos_append (pre l : List Nat) (h : WellFormed pre) :
    first_invalid_pos (pre ++ l) = shift_pos pre.length (first_invalid_pos l) := by
  induction h with
  | nil =>
    simp only [List.nil_append, List.length_nil, shift_pos]
    split <;> omega
  | one a t ha _ ih =>
    rw [List.cons_append, first_invalid_pos.eq_def]
    simp only [if_pos ha]
    rw [ih, shift_pos_shift_pos, List.length_cons]
  | two a b t h1 h2 hb _ ih =>
    rw [List.cons_append, List.cons_append, first_invalid_pos.eq_def]
    simp only [if_neg (show ¬ a ≤ 0x7F by omega), if_pos (And.intro h1 h2), if_pos hb]
    rw [ih, shift_pos_shift_pos, List.length_cons, List.length_cons]
  | three a b c t hh hc _ ih =>
    have ha : 0xE0 ≤ a ∧ a ≤ 0xEF := by
      unfold UTF8_3_head at hh; omega
    rw [List.cons_append, List.cons_append, List.cons_append, first_invalid_pos.eq_def]
    simp only [if_neg (show ¬ a ≤ 0x7F by omega),
      if_neg (show ¬ (0xC2 ≤ a ∧ a ≤ 0xDF) by omega), if_pos ha, if_pos (And.intro hh hc)]
    rw [ih, shift_pos_shift_pos, List.length_cons, List.length_cons, List.length_cons]
  | four a b c d t hh hc hd _ ih =>
    have ha : 0xF0 ≤ a ∧ a ≤ 0xF4 := by
      unfold UTF8_4_head at hh; omega
    rw [List.cons_append, List.cons_append, List.cons_append, List.cons_append,
      first_invalid_pos.eq_def]
    simp only [if_neg (show ¬ a ≤ 0x7F by omega),
      if_neg (show ¬ (0xC2 ≤ a ∧ a ≤ 0xDF) by omega),
      if_neg (show ¬ (0xE0 ≤ a ∧ a ≤ 0xEF) by omega), if_pos (And.intro hh (And.intro hc hd))]
    rw [ih, shift_pos_shift_pos, List.length_cons, List.length_cons, List.length_cons,
      List.length_cons]

/-- The position is 0 on the well-formed byte strings. -/
theorem first_invalid_pos_of_wellFormed (l : List Nat) (h : WellFormed l) :
    first_invalid_pos l = 0 := by
  have := first_invalid_pos_append l [] h
  rw [List.append_nil] at this
  rw [this]
  rfl

/-- The position is 0 on the well-formed byte strings only. -/
theorem wellFormed_of_first_invalid_pos (l : List Nat) (h : first_invalid_pos l = 0) :
    WellFormed l := by
  have hs : ∀ k r, shift_pos k r = 0 → r = 0 := by
    intro k r hr
    unfold shift_pos at hr
    split at hr <;> omega
  induction l using first_invalid_pos.induct with
  | case1 => exact WellFormed.nil
  | case2 a t ha ih =>
    rw [first_invalid_pos.eq_def] at h
    simp only [if_pos ha] at h
    exact WellFormed.one a t ha (ih (hs _ _ h))
  | case3 a ha =>
    rw [first_invalid_pos.eq_def] at h
    simp [if_neg ha] at h
  | case4 a ha b t h2 hb ih =>
    rw [first_invalid_pos.eq_def] at h
    simp only [if_neg ha, if_pos h2, if_pos hb] at h
    exact WellFormed.two a b t h2.1 h2.2 hb (ih (hs _ _ h))
  | case5 a ha b t h2 hb =>
    rw [first_invalid_pos.eq_def] at h
    simp [if_neg ha, if_pos h2, if_neg hb] at h
  | case6 a ha b h2 =>
    rw [first_invalid_pos.eq_def] at h
    simp [if_neg ha, if_neg h2] at h
  | case7 a ha b h2 c t h3 hh ih =>
    rw [first_invalid_pos.eq_def] at h
    simp only [if_neg ha, if_neg h2, if_pos h3, if_pos hh] at h
    exact WellFormed.three a b c t hh.1 hh.2 (ih (hs _ _ h))
  | case8 a ha b h2 c t h3 hh =>
    rw [first_invalid_pos.eq_def] at h
    simp [if_neg ha, if_neg h2, if_pos h3, if_neg hh] at h
  | case9 a ha b h2 c h3 =>
    rw [first_invalid_pos.eq_def] at h
    simp [if_neg ha, if_neg h2, if_neg h3] at h
  | case10 a ha b h2 c h3 d t hh ih =>
    rw [first_invalid_pos.eq_def] at h
    simp only [if_neg ha, if_neg h2, if_neg h3, if_pos hh] at h
    exact WellFormed.four a b c d t hh.1 hh.2.1 hh.2.2 (ih (hs _ _ h))
  | case11 a ha b h2 c h3 d t hh =>
    rw [first_invalid_pos.eq_def] at h
    simp [if_neg ha, if_neg h2, if_neg h3, if_neg hh] at h

/-- The position-reporting validator returns 0 exactly on the well-formed
ranges. -/
theorem utf8_naive_pos_correct : NaiveCorrect utf8_naive_pos := by
  intro l
  unfold utf8_naive_pos
  constructor
  · intro h
    exact wellFormed_of_first_invalid_pos l (by exact_mod_cast h)
  · intro h
    rw [first_invalid_pos_of_wellFormed l h]
    rfl

/-! ## Agreement of the two scans -/

theorem loadu_lt (buf : List Nat) (hb : Bytes buf) (off : Nat) (j : Fin 16) :
    _mm_loadu_si128 buf off j < 256 := by
  unfold _mm_loadu_si128
  rcases Nat.lt_or_ge (off + j.val) buf.length with h | h
  · rw [List.getD_eq_getElem _ _ h]
    exact hb _ (List.getElem_mem h)
  · rw [List.getD_eq_default _ _ h]
    norm_num

/-- The carry state of the scan over `check_utf8_bytes` is one the classifier
leaves. -/
theorem scan_chunks_carryOf (buf : List Nat) (hb : Bytes buf) (k : Nat) :
    CarryOf (scan_chunks buf k).1 := by
  rw [scan_carry buf hb k]
  exact ⟨fun j => byte_before_lt buf hb _ _, rfl⟩

set_option maxRecDepth 1000000 in
set_option maxHeartbeats 40000000 in
/-- The range test of a lane against the step of the automaton, for every state,
every set of carried values that goes with it and every byte value. -/
theorem lane_step_table (s : Pending) : ∀ f3 f2 f1 : Fin 4, ∀ a : Fin 5,
    carries s f3.val f2.val f1.val a.val = true → ∀ d : Fin 256,
      (range_flags (((_first_range_tbl.getD (d.val / 16) 0 ||| f1.val ||| (f2.val - 1)
          ||| (f3.val - 2)) + a.val) % 256) d.val ↔ step s d.val = none) ∧
      (step s d.val ≠ none →
        ((_first_range_tbl.getD (d.val / 16) 0 ||| f1.val ||| (f2.val - 1)
          ||| (f3.val - 2)) + a.val) % 256 ≤ 8) ∧
      carried_on s f2.val f1.val d.val = true := by
  cases s <;> decide

/-- A lane flags its byte exactly when the automaton has no step for it; when
there is a step the range index is at most 8 and the carried values go with the
new state. -/
theorem lane_step (s : Pending) (c3 c2 c1 d : Nat) (hd : d < 256)
    (h : carries s (first_len_of c3) (first_len_of c2) (first_len_of c1) (range_adjust c1)
      = true) :
    (lane_error c3 c2 c1 d ↔ step s d = none) ∧
    (step s d ≠ none → range_index c3 c2 c1 d ≤ 8) ∧
    carried_on s (first_len_of c2) (first_len_of c1) d = true :=
  lane_step_table s ⟨first_len_of c3, by have := first_len_of_le c3; omega⟩
    ⟨first_len_of c2, by have := first_len_of_le c2; omega⟩
    ⟨first_len_of c1, by have := first_len_of_le c1; omega⟩
    ⟨range_adjust c1, by have := range_adjust_le c1; omega⟩ h ⟨d, hd⟩

theorem run_append (s : Pending) (l m : List Nat) :
    run s (l ++ m) = (run s l).bind fun s2 => run s2 m := by
  induction l generalizing s with
  | nil => rfl
  | cons d t ih =>
    simp only [List.cons_append, run]
    cases step s d with
    | none => rfl
    | some s2 => exact ih s2

theorem run_snoc (s : Pending) (l : List Nat) (d : Nat) :
    run s (l ++ [d]) = (run s l).bind fun s2 => step s2 d := by
  rw [run_append]
  congr 1
  funext s2
  simp only [run]
  cases step s2 d <;> rfl

theorem take_succ_getD (buf : List Nat) (n : Nat) (h : n < buf.length) :
    buf.take (n + 1) = buf.take n ++ [buf.getD n 0] := by
  rw [List.take_succ, List.getD_eq_getElem _ _ h, List.getElem?_eq_getElem h]
  rfl

theorem byte_before_one (buf : List Nat) (n : Nat) :
    byte_before buf (n + 1) 1 = buf.getD n 0 := by
  unfold byte_before
  simp

/-- Along the buffer the automaton and the lanes go together: while the
automaton has a state no lane has flagged its byte, every range index was at
most 8 and the carried values go with the state; once it has none a lane has
flagged its byte. -/
theorem run_take_lanes (buf : List Nat) (hb : Bytes buf) (n : Nat) (hn : n ≤ buf.length) :
    (∀ s, run .done (buf.take n) = some s →
      (∀ p, p < n → ¬ lane_error_at buf p ∧ range_index_at buf p ≤ 8) ∧
      carries s (first_len_of (byte_before buf n 3)) (first_len_of (byte_before buf n 2))
        (first_len_of (byte_before buf n 1)) (range_adjust (byte_before buf n 1)) = true) ∧
    (run .done (buf.take n) = none → ∃ p, p < n ∧ lane_error_at buf p) := by
  induction n with
  | zero =>
    constructor
    · intro s hs
      simp only [List.take_zero, run, Option.some.injEq] at hs
      subst hs
      refine ⟨fun p hp => absurd hp (by omega), ?_⟩
      have e : ∀ m, byte_before buf 0 (m + 1) = 0 := by
        intro m; unfold byte_before; simp
      rw [e 2, e 1, e 0]
      decide
    · intro h
      simp [run] at h
  | succ n ih =>
    have hlt : n < buf.length := by omega
    obtain ⟨ih1, ih2⟩ := ih (by omega)
    have hd : buf.getD n 0 < 256 := by
      rw [List.getD_eq_getElem _ _ hlt]
      exact hb _ (List.getElem_mem hlt)
    rw [take_succ_getD buf n hlt, run_snoc]
    cases hrun : run .done (buf.take n) with
    | none =>
      constructor
      · intro s hs
        simp at hs
      · intro _
        obtain ⟨p, hp, he⟩ := ih2 hrun
        exact ⟨p, by omega, he⟩
    | some s0 =>
      obtain ⟨hno, hcar⟩ := ih1 s0 hrun
      obtain ⟨k1, k2, k3⟩ := lane_step s0 _ _ _ _ hd hcar
      simp only [Option.some_bind]
      constructor
      · intro s hs
        have hne : step s0 (buf.getD n 0) ≠ none := by rw [hs]; simp
        refine ⟨fun p hp => ?_, ?_⟩
        · rcases Nat.lt_or_ge p n with c | c
          · exact hno p c
          · have e : p = n := by omega
            subst e
            exact ⟨fun he => hne (k1.1 he), k2 hne⟩
        · unfold carried_on at k3
          rw [hs] at k3
          rw [byte_before_succ buf n 2, byte_before_succ buf n 1, byte_before_one]
          exact k3
      · intro hs
        exact ⟨n, by omega, k1.2 hs⟩

theorem run_cons (s : Pending) (d : Nat) (t : List Nat) (s2 : Pending)
    (h : step s d = some s2) : run s (d :: t) = run s2 t := by
  simp only [run, h]

theorem run_completion (s : Pending) : run s (completion s) = some .done := by
  cases s <;> rfl

/-- A well-formed byte string takes the automaton from `done` back to `done`. -/
theorem run_of_wellFormed (l : List Nat) (h : WellFormed l) : run .done l = some .done := by
  induction h with
  | nil => rfl
  | one a t ha _ ih =>
    rw [run_cons _ _ _ .done (by simp only [step, if_pos ha])]
    exact ih
  | two a b t h1 h2 hb _ ih =>
    unfold UTF8_tail at hb
    rw [run_cons _ _ _ .tail1 (by
        simp only [step, if_neg (show ¬ a ≤ 0x7F by omega), if_pos (And.intro h1 h2)]),
      run_cons _ _ _ .done (by simp only [step, if_pos hb])]
    exact ih
  | three a b c t hh hc _ ih =>
    unfold UTF8_tail at hc
    unfold UTF8_3_head UTF8_tail at hh
    rcases hh with ⟨rfl, hb⟩ | ⟨h1, h2, hb⟩ | ⟨rfl, hb⟩ | ⟨h1, h2, hb⟩
    · rw [run_cons _ _ _ .afterE0 (by decide), run_cons _ _ _ .tail1 (by
          simp only [step, if_pos hb]), run_cons _ _ _ .done (by simp only [step, if_pos hc])]
      exact ih
    · rw [run_cons _ _ _ .tail2 (by
          simp only [step, if_neg (show ¬ a ≤ 0x7F by omega),
            if_neg (show ¬ (0xC2 ≤ a ∧ a ≤ 0xDF) by omega), if_neg (show ¬ a = 0xE0 by omega),
            if_neg (show ¬ a = 0xED by omega), if_pos (show 0xE1 ≤ a ∧ a ≤ 0xEF by omega)]),
        run_cons _ _ _ .tail1 (by simp only [step, if_pos hb]),
        run_cons _ _ _ .done (by simp only [step, if_pos hc])]
      exact ih
    · rw [run_cons _ _ _ .afterED (by decide), run_cons _ _ _ .tail1 (by
          simp only [step, if_pos hb]), run_cons _ _ _ .done (by simp only [step, if_pos hc])]
      exact ih
    · rw [run_cons _ _ _ .tail2 (by
          simp only [step, if_neg (show ¬ a ≤ 0x7F by omega),
            if_neg (show ¬ (0xC2 ≤ a ∧ a ≤ 0xDF) by omega), if_neg (show ¬ a = 0xE0 by omega),
            if_neg (show ¬ a = 0xED by omega), if_pos (show 0xE1 ≤ a ∧ a ≤ 0xEF by omega)]),
        run_cons _ _ _ .tail1 (by simp only [step, if_pos hb]),
        run_cons _ _ _ .done (by simp only [step, if_pos hc])]
      exact ih
  | four a b c d t hh hc hd _ ih =>
    unfold UTF8_tail at hc hd
    unfold UTF8_4_head UTF8_tail at hh
    rcases hh with ⟨rfl, hb⟩ | ⟨h1, h2, hb⟩ | ⟨rfl, hb⟩
    · rw [run_cons _ _ _ .afterF0 (by decide), run_cons _ _ _ .tail2 (by
          simp only [step, if_pos hb]), run_cons _ _ _ .tail1 (by simp only [step, if_pos hc]),
        run_cons _ _ _ .done (by simp only [step, if_pos hd])]
      exact ih
    · rw [run_cons _ _ _ .tail3 (by
          simp only [step, if_neg (show ¬ a ≤ 0x7F by omega),
            if_neg (show ¬ (0xC2 ≤ a ∧ a ≤ 0xDF) by omega), if_neg (show ¬ a = 0xE0 by omega),
            if_neg (show ¬ a = 0xED by omega), if_neg (show ¬ (0xE1 ≤ a ∧ a ≤ 0xEF) by omega),
            if_neg (show ¬ a = 0xF0 by omega), if_pos (show 0xF1 ≤ a ∧ a ≤ 0xF3 by omega)]),
        run_cons _ _ _ .tail2 (by simp only [step, if_pos hb]),
        run_cons _ _ _ .tail1 (by simp only [step, if_pos hc]),
        run_cons _ _ _ .done (by simp only [step, if_pos hd])]
      exact ih
    · rw [run_cons _ _ _ .afterF4 (by decide), run_cons _ _ _ .tail2 (by
          simp only [step, if_pos hb]), run_cons _ _ _ .tail1 (by simp only [step, if_pos hc]),
        run_cons _ _ _ .done (by simp only [step, if_pos hd])]
      exact ih

/-- A byte string that takes the automaton from a state to `done` settles what
the state owes and goes on well formed. -/
theorem completes_of_run (s : Pending) (l : List Nat) (h : run s l = some .done) :
    Completes s l := by
  induction l generalizing s with
  | nil =>
    simp only [run, Option.some.injEq] at h
    subst h
    exact WellFormed.nil
  | cons d t ih =>
    simp only [run] at h
    cases hst : step s d with
    | none => rw [hst] at h; simp at h
    | some s2 =>
      rw [hst] at h
      have hc := ih s2 h
      cases s with
      | done =>
        simp only [step] at hst
        split_ifs at hst with h1 h2 h3 h4 h5 h6 h7 h8
        · cases hst
          exact WellFormed.one d t h1 hc
        · cases hst
          obtain ⟨b, t2, rfl, hb, hw⟩ := hc
          exact WellFormed.two d b t2 h2.1 h2.2 hb hw
        · cases hst
          obtain ⟨b, c, t2, rfl, hb, hcc, hw⟩ := hc
          exact WellFormed.three d b c t2 (Or.inl ⟨h3, hb⟩) hcc hw
        · cases hst
          obtain ⟨b, c, t2, rfl, hb, hcc, hw⟩ := hc
          exact WellFormed.three d b c t2 (Or.inr (Or.inr (Or.inl ⟨h4, hb⟩))) hcc hw
        · cases hst
          obtain ⟨b, c, t2, rfl, hb, hcc, hw⟩ := hc
          refine WellFormed.three d b c t2 ?_ hcc hw
          unfold UTF8_3_head
          rcases Nat.lt_or_ge d 0xED with c1 | c1
          · exact Or.inr (Or.inl ⟨h5.1, by omega, hb⟩)
          · exact Or.inr (Or.inr (Or.inr ⟨by omega, h5.2, hb⟩))
        · cases hst
          obtain ⟨b, c, e, t2, rfl, hb, hcc, he, hw⟩ := hc
          exact WellFormed.four d b c e t2 (Or.inl ⟨h6, hb⟩) hcc he hw
        · cases hst
          obtain ⟨b, c, e, t2, rfl, hb, hcc, he, hw⟩ := hc
          exact WellFormed.four d b c e t2 (Or.inr (Or.inl ⟨h7.1, h7.2, hb⟩)) hcc he hw
        · cases hst
          obtain ⟨b, c, e, t2, rfl, hb, hcc, he, hw⟩ := hc
          exact WellFormed.four d b c e t2 (Or.inr (Or.inr ⟨h8, hb⟩)) hcc he hw
      | tail1 =>
        simp only [step] at hst
        split_ifs at hst with h1
        cases hst
        exact ⟨d, t, rfl, h1, hc⟩
      | tail2 =>
        simp only [step] at hst
        split_ifs at hst with h1
        cases hst
        obtain ⟨b, t2, rfl, hb, hw⟩ := hc
        exact ⟨d, b, t2, rfl, h1, hb, hw⟩
      | tail3 =>
        simp only [step] at hst
        split_ifs at hst with h1
        cases hst
        obtain ⟨b, c, t2, rfl, hb, hcc, hw⟩ := hc
        exact ⟨d, b, c, t2, rfl, h1, hb, hcc, hw⟩
      | afterE0 =>
        simp only [step] at hst
        split_ifs at hst with h1
        cases hst
        obtain ⟨b, t2, rfl, hb, hw⟩ := hc
        exact ⟨d, b, t2, rfl, h1, hb, hw⟩
      | afterED =>
        simp only [step] at hst
        split_ifs at hst with h1
        cases hst
        obtain ⟨b, t2, rfl, hb, hw⟩ := hc
        exact ⟨d, b, t2, rfl, h1, hb, hw⟩
      | afterF0 =>
        simp only [step] at hst
        split_ifs at hst with h1
        cases hst
        obtain ⟨b, c, t2, rfl, hb, hcc, hw⟩ := hc
        exact ⟨d, b, c, t2, rfl, h1, hb, hcc, hw⟩
      | afterF4 =>
        simp only [step] at hst
        split_ifs at hst with h1
        cases hst
        obtain ⟨b, c, t2, rfl, hb, hcc, hw⟩ := hc
        exact ⟨d, b, c, t2, rfl, h1, hb, hcc, hw⟩

/-- The automaton accepts exactly the well-formed byte strings. -/
theorem run_done_iff (l : List Nat) : run .done l = some .done ↔ WellFormed l :=
  ⟨completes_of_run .done l, run_of_wellFormed l⟩

/-- The automaton keeps a state exactly on the byte strings that some further
bytes extend to a well-formed one. -/
theorem run_isSome_iff (l : List Nat) :
    (∃ s, run .done l = some s) ↔ ∃ e, WellFormed (l ++ e) := by
  constructor
  · rintro ⟨s, hs⟩
    refine ⟨completion s, (run_done_iff _).1 ?_⟩
    rw [run_append, hs]
    exact run_completion s
  · rintro ⟨e, he⟩
    have h := (run_done_iff _).2 he
    rw [run_append] at h
    cases hr : run .done l with
    | none => rw [hr] at h; simp at h
    | some s => exact ⟨s, rfl⟩

/-- A well-formed byte string consists of byte values. -/
theorem WellFormed.bytes {l : List Nat} (h : WellFormed l) : Bytes l := by
  induction h with
  | nil => intro x hx; simp at hx
  | one a t ha _ ih =>
    intro x hx
    rcases List.mem_cons.1 hx with rfl | hx
    · omega
    · exact ih x hx
  | two a b t h1 h2 hb _ ih =>
    intro x hx
    unfold UTF8_tail at hb
    simp only [List.mem_cons] at hx
    rcases hx with rfl | rfl | hx
    · omega
    · omega
    · exact ih x hx
  | three a b c t hh hc _ ih =>
    intro x hx
    unfold UTF8_3_head UTF8_tail at hh
    unfold UTF8_tail at hc
    simp only [List.mem_cons] at hx
    rcases hx with rfl | rfl | rfl | hx
    · omega
    · omega
    · omega
    · exact ih x hx
  | four a b c d t hh hc hd _ ih =>
    intro x hx
    unfold UTF8_4_head UTF8_tail at hh
    unfold UTF8_tail at hc hd
    simp only [List.mem_cons] at hx
    rcases hx with rfl | rfl | rfl | rfl | hx
    · omega
    · omega
    · omega
    · omega
    · exact ih x hx

/-- The range index that `check_utf8_bytes` computes in lane `i` of chunk `k`,
in terms of the position in the buffer. -/
theorem chunk_range_scan (buf : List Nat) (hb : Bytes buf) (k : Nat) (i : Fin 16) :
    chunk_range (_mm_loadu_si128 buf (16 * k)) (scan_chunks buf k).1 i
      = range_index_at buf (16 * k + i.val) := by
  have hin := loadu_lt buf hb (16 * k)
  have hc := scan_chunks_carryOf buf hb k
  rw [chunk_range_lane _ _ hin hc.2 i]
  have hin2 : (scan_chunks buf k).1.input = fun j => byte_before buf (16 * k) (16 - j.val) := by
    rw [scan_carry buf hb k]
  rw [hin2]
  have a1 := alignr_history buf k 1 (by omega) (by omega) i
  have a2 := alignr_history buf k 2 (by omega) (by omega) i
  have a3 := alignr_history buf k 3 (by omega) (by omega) i
  norm_num at a1 a2 a3
  rw [a1, a2, a3]
  rfl

/-- No lane of the mask is set after `k` chunks exactly when no byte of the
first `16 * k` positions fails its range test. -/
theorem scan_clear_iff (buf : List Nat) (hb : Bytes buf) (k : Nat) :
    (∀ i, (scan_chunks buf k).2 i = 0) ↔ ∀ p, p < 16 * k → ¬ lane_error_at buf p := by
  constructor
  · intro h p hp he
    have := (scan_error_iff buf hb k ⟨p % 16, Nat.mod_lt _ (by norm_num)⟩).2
      ⟨p / 16, by omega, by
        have e : 16 * (p / 16) + p % 16 = p := Nat.div_add_mod p 16
        simp only [e]
        exact he⟩
    exact this (h _)
  · intro h i
    by_contra hne
    obtain ⟨j, hj, he⟩ := (scan_error_iff buf hb k i).1 hne
    exact h (16 * j + i.val) (by have := i.isLt; omega) he

/-- The scan of a whole number of chunks raises no error exactly when the bytes
can be extended to a well-formed byte string. -/
theorem scan_clear_iff_extends (buf : List Nat) (hb : Bytes buf) (k : Nat)
    (hlen : buf.length = 16 * k) :
    (∀ i, (scan_chunks buf k).2 i = 0) ↔ ∃ e, WellFormed (buf ++ e) := by
  rw [scan_clear_iff buf hb k, ← run_isSome_iff]
  have htake : buf.take (16 * k) = buf := by
    rw [← hlen]; exact List.take_length buf
  have key := run_take_lanes buf hb (16 * k) (by omega)
  rw [htake] at key
  constructor
  · intro h
    cases hr : run .done buf with
    | none =>
      obtain ⟨p, hp, he⟩ := key.2 hr
      exact absurd he (h p hp)
    | some s => exact ⟨s, rfl⟩
  · rintro ⟨s, hs⟩ p hp
    exact ((key.1 s hs).1 p hp).1

/-- On a well-formed buffer every byte of every full chunk gets a range index of
at most 8. -/
theorem range_index_le_8_of_wellFormed (buf : List Nat) (h : WellFormed buf) (k : Nat)
    (hk : 16 * (k + 1) ≤ buf.length) (i : Fin 16) :
    chunk_range (_mm_loadu_si128 buf (16 * k)) (scan_chunks buf k).1 i ≤ 8 := by
  have hb := h.bytes
  rw [chunk_range_scan buf hb k i]
  have hpre : ∃ s, run .done (buf.take (16 * (k + 1))) = some s := by
    rw [run_isSome_iff]
    exact ⟨buf.drop (16 * (k + 1)), by rw [List.take_append_drop]; exact h⟩
  obtain ⟨s, hs⟩ := hpre
  have key := (run_take_lanes buf hb (16 * (k + 1)) hk).1 s hs
  exact (key.1 (16 * k + i.val) (by have := i.isLt; omega)).2

/-! ## Buffers shorter than one chunk -/

/-- Claim C1, evaluated at failing inputs. Five copies of `F0 9F 98 80` are well
formed, yet when the word that `token[3]` addresses exceeds 0xBF the function
rewinds by one byte, hands `80 F0 9F 98 80` to the scalar validator and returns
-1. Fifteen ASCII bytes followed by `C3 A9` are well formed, yet when the three
words are zero the function does not rewind, hands `A9` alone to the scalar
validator and returns -1. -/
theorem C1_well_formed_buffer_rejected :
    NaiveCorrect utf8_naive_ref ∧
    WellFormed five_smileys ∧
    utf8_range_asciipath utf8_naive_ref env_high five_smileys = -1 ∧
    WellFormed (ascii_run 15 ++ [0xC3, 0xA9]) ∧
    utf8_range_asciipath utf8_naive_ref env_zero (ascii_run 15 ++ [0xC3, 0xA9]) = -1 :=
  ⟨utf8_naive_ref_correct, (wellFormedB_iff _).1 (by decide), by decide,
    (wellFormedB_iff _).1 (by decide), by decide⟩

/-- Claim C2: with a scalar validator that returns 0 exactly on the well-formed
ranges, a buffer of bytes that contains `C0`, `C1` or a byte in `F5..FF` at any
position makes `utf8_range_asciipath` return a non-zero value, whatever the
out-of-object reads yield. -/
theorem C2_illegal_byte_invalid (utf8_naive : List Nat → Int) (env : Env) (buf : List Nat)
    (hn : NaiveCorrect utf8_naive) (hb : Bytes buf) (x : Nat) (hx : x ∈ buf)
    (hill : x = 0xC0 ∨ x = 0xC1 ∨ (0xF5 ≤ x ∧ x ≤ 0xFF)) :
    utf8_range_asciipath utf8_naive env buf ≠ 0 :=
  illegal_byte_rejected utf8_naive env buf hn hb x hx hill

/-- Claim C2 at the buffer `C0 80`. -/
theorem C2_illegal_byte_invalid_witness :
    NaiveCorrect utf8_naive_ref ∧ Bytes [0xC0, 0x80] ∧ 0xC0 ∈ [0xC0, 0x80] ∧
    utf8_range_asciipath utf8_naive_ref env_zero [0xC0, 0x80] ≠ 0 :=
  ⟨utf8_naive_ref_correct, by unfold Bytes; decide, by decide,
    C2_illegal_byte_invalid utf8_naive_ref env_zero [0xC0, 0x80] utf8_naive_ref_correct
      (by unfold Bytes; decide) 0xC0 (by decide) (Or.inl rfl)⟩

/-- Claim C3: with a scalar validator that returns 0 exactly on the well-formed
ranges, a buffer of bytes that contains two adjacent bytes `E0 80..9F`,
`ED A0..BF`, `F0 80..8F` or `F4 90..BF` at any position `q`, `q + 1` (in one
chunk, across two chunks, across the last chunk and the tail, or in the tail),
or a lead byte `C0` or `C1`, makes `utf8_range_asciipath` return a non-zero
value. -/
theorem C3_overlong_surrogate_out_of_range_invalid (utf8_naive : List Nat → Int) (env : Env)
    (buf : List Nat) (hn : NaiveCorrect utf8_naive) (hb : Bytes buf)
    (h : (∃ q c d, buf[q]? = some c ∧ buf[q + 1]? = some d ∧
            ((c = 0xE0 ∧ 0x80 ≤ d ∧ d ≤ 0x9F) ∨ (c = 0xED ∧ 0xA0 ≤ d ∧ d ≤ 0xBF) ∨
             (c = 0xF0 ∧ 0x80 ≤ d ∧ d ≤ 0x8F) ∨ (c = 0xF4 ∧ 0x90 ≤ d ∧ d ≤ 0xBF))) ∨
         (∃ x, x ∈ buf ∧ (x = 0xC0 ∨ x = 0xC1))) :
    utf8_range_asciipath utf8_naive env buf ≠ 0 := by
  rcases h with ⟨q, c, d, hc, hd, hbad⟩ | ⟨x, hx, hx2⟩
  · exact bad_pair_rejected utf8_naive env buf hn hb q c d hc hd hbad
  · refine illegal_byte_rejected utf8_naive env buf hn hb x hx ?_
    rcases hx2 with h | h
    · exact Or.inl h
    · exact Or.inr (Or.inl h)

/-- Claim C3 at fifteen ASCII bytes followed by `E0 80 80`: the lead byte is the
last byte of the chunk and the second byte is the first byte of the tail. -/
theorem C3_overlong_surrogate_out_of_range_invalid_witness :
    (ascii_run 15 ++ [0xE0, 0x80, 0x80])[15]? = some 0xE0 ∧
    (ascii_run 15 ++ [0xE0, 0x80, 0x80])[15 + 1]? = some 0x80 ∧
    utf8_range_asciipath utf8_naive_ref env_zero (ascii_run 15 ++ [0xE0, 0x80, 0x80]) ≠ 0 :=
  ⟨by decide, by decide,
    C3_overlong_surrogate_out_of_range_invalid utf8_naive_ref env_zero
      (ascii_run 15 ++ [0xE0, 0x80, 0x80]) utf8_naive_ref_correct (by unfold Bytes; decide)
      (Or.inl ⟨15, 0xE0, 0x80, by decide, by decide, Or.inl ⟨rfl, by decide, by decide⟩⟩)⟩

/-- Claim C4, evaluated at a failing input. Fifteen ASCII bytes followed by `C2`
(16 bytes, a 2-byte sequence cut after its lead byte, which is the last byte of
the only chunk) is not well formed, yet when the three words past `token4` are
zero the function does not rewind, hands the empty range to the scalar validator
and returns 0. -/
theorem C4_truncated_sequence_accepted :
    NaiveCorrect utf8_naive_ref ∧ ¬ WellFormed (ascii_run 15 ++ [0xC2]) ∧
    utf8_range_asciipath utf8_naive_ref env_zero (ascii_run 15 ++ [0xC2]) = 0 :=
  ⟨utf8_naive_ref_correct, fun h => absurd ((wellFormedB_iff _).2 h) (by decide), by decide⟩

/-- Claim C5, evaluated at a failing input. The one-byte buffer `C2` is rejected,
and the same byte after fifteen ASCII bytes is accepted, when the three words
past `token4` are zero. -/
theorem C5_ascii_run_changes_verdict :
    NaiveCorrect utf8_naive_ref ∧ (∀ b ∈ ascii_run 15, b < 0x80) ∧
    utf8_range_asciipath utf8_naive_ref env_zero [0xC2] ≠ 0 ∧
    utf8_range_asciipath utf8_naive_ref env_zero (ascii_run 15 ++ [0xC2]) = 0 :=
  ⟨utf8_naive_ref_correct, by decide, by decide, by decide⟩

/-- Claim C7: when no lane of the error mask is set after the `len / 16` full
chunks, `utf8_range_asciipath` returns the value of `utf8_naive` on the range
that starts at offset `16 * (len / 16) - lookahead` and has length
`len % 16 + lookahead`, with `lookahead` the count the function computes after
the last chunk; when the rewind stays inside the buffer that range is the suffix
of the buffer from that offset on. -/
theorem C7_delegates_rewound_tail (utf8_naive : List Nat → Int) (env : Env) (buf : List Nat)
    (h : ∀ i, (scan_chunks buf (buf.length / 16)).2 i = 0) :
    utf8_range_asciipath utf8_naive env buf
      = utf8_naive (byte_range env buf
          ((16 * (buf.length / 16) : Nat) -
            (lookahead env (scan_chunks buf (buf.length / 16)).1.input : Nat))
          (buf.length % 16 + lookahead env (scan_chunks buf (buf.length / 16)).1.input)) ∧
    (lookahead env (scan_chunks buf (buf.length / 16)).1.input ≤ 16 * (buf.length / 16) →
      byte_range env buf
          ((16 * (buf.length / 16) : Nat) -
            (lookahead env (scan_chunks buf (buf.length / 16)).1.input : Nat))
          (buf.length % 16 + lookahead env (scan_chunks buf (buf.length / 16)).1.input)
        = buf.drop
            (16 * (buf.length / 16) - lookahead env (scan_chunks buf (buf.length / 16)).1.input)) := by
  constructor
  · rw [utf8_range_asciipath_eq, if_neg]
    rintro ⟨i, hi⟩
    exact hi (h i)
  · intro hle
    generalize lookahead env (scan_chunks buf (buf.length / 16)).1.input = la at hle
    have e : ((16 * (buf.length / 16) : Nat) : Int) - (la : Int)
        = ((16 * (buf.length / 16) - la : Nat) : Int) := by omega
    rw [e]
    exact byte_range_eq_drop env buf _ _ (by omega)

/-- Claim C7 at five copies of `F0 9F 98 80`: the chunk raises no error and the
last four bytes are delegated. -/
theorem C7_delegates_rewound_tail_witness :
    (∀ i, (scan_chunks five_smileys (five_smileys.length / 16)).2 i = 0) ∧
    utf8_range_asciipath utf8_naive_ref env_zero five_smileys
      = utf8_naive_ref [0xF0, 0x9F, 0x98, 0x80] :=
  ⟨by decide,
    (C7_delegates_rewound_tail utf8_naive_ref env_zero five_smileys (by decide)).1.trans
      (by decide)⟩

/-- Claim C8: when a lane of the error mask is set after the full chunks,
`utf8_range_asciipath` returns -1 for every scalar validator (and every
environment), so the result does not depend on `utf8_naive`. A set lane needs a
processed chunk, so the buffer has at least 16 bytes. -/
theorem C8_vector_error_returns_minus_one (buf : List Nat)
    (h : ∃ i, (scan_chunks buf (buf.length / 16)).2 i ≠ 0) :
    16 ≤ buf.length ∧
    ∀ (utf8_naive : List Nat → Int) (env : Env), utf8_range_asciipath utf8_naive env buf = -1 := by
  constructor
  · by_contra hlt
    have e : buf.length / 16 = 0 := by omega
    rw [e] at h
    obtain ⟨i, hi⟩ := h
    exact hi rfl
  · intro utf8_naive env
    rw [utf8_range_asciipath_eq, if_pos h]

/-- Claim C8 at `C0` followed by sixteen ASCII bytes: the chunk holds an illegal
byte and the one-byte tail is well formed. -/
theorem C8_vector_error_returns_minus_one_witness :
    (∃ i, (scan_chunks (0xC0 :: ascii_run 16) ((0xC0 :: ascii_run 16).length / 16)).2 i ≠ 0) ∧
    WellFormed ((0xC0 :: ascii_run 16).drop 16) ∧
    ∀ (utf8_naive : List Nat → Int) (env : Env),
      utf8_range_asciipath utf8_naive env (0xC0 :: ascii_run 16) = -1 :=
  ⟨by decide, (wellFormedB_iff _).1 (by decide),
    (C8_vector_error_returns_minus_one (0xC0 :: ascii_run 16) (by decide)).2⟩

/-- Claim C9, evaluated at failing inputs. For the chunk of fifteen ASCII bytes
followed by `C2` the byte walk of the specification gives 1, and the function
computes 0 when the three words past `token4` are zero; for the all-zero chunk
the byte walk gives 0, and the function computes 1 when the word that `token[3]`
addresses exceeds 0xBF. -/
theorem C9_lookahead_not_a_byte_walk :
    lookahead_spec (_mm_loadu_si128 (ascii_run 15 ++ [0xC2]) 0) = 1 ∧
    lookahead env_zero (_mm_loadu_si128 (ascii_run 15 ++ [0xC2]) 0) = 0 ∧
    lookahead_spec _mm_setzero_si128 = 0 ∧
    lookahead env_high _mm_setzero_si128 = 1 :=
  ⟨by decide, by decide, by decide, by decide⟩

/-- Claim C12: for every range index 9 to 15 the signed entry of
`_range_min_tbl` exceeds that of `_range_max_tbl` and the range test flags every
byte value; for every index 0 to 8 the byte values that pass the test are
exactly the documented window (0: 00..7F, 1 to 3: 80..BF, 4: A0..BF, 5: 80..9F,
6: 90..BF, 7: 80..8F, 8: C2..F4). -/
theorem C12_range_table_windows (r b : Nat) (hr : r ≤ 15) (hb : b < 256) :
    (9 ≤ r → toInt8 (_range_min_tbl.getD r 0) > toInt8 (_range_max_tbl.getD r 0) ∧
      range_flags r b) ∧
    (r ≤ 8 → (¬ range_flags r b ↔ documented_window r b)) := by
  have key := range_flags_table ⟨r, by omega⟩ ⟨b, hb⟩
  refine ⟨fun h9 => ⟨?_, key.1 h9⟩, key.2⟩
  interval_cases r <;> decide

/-- Claim C12 at index 12 with byte `41` and at index 5 with byte `90`. -/
theorem C12_range_table_windows_witness :
    range_flags 12 0x41 ∧ (¬ range_flags 5 0x90 ↔ documented_window 5 0x90) :=
  ⟨((C12_range_table_windows 12 0x41 (by decide) (by decide)).1 (by decide)).2,
    (C12_range_table_windows 5 0x90 (by decide) (by decide)).2 (by decide)⟩

/-- Claim C14: in a lane (lane 0 included, where the preceding bytes come from
the carry state) whose error bit is clear, whose preceding byte is `E0`, `ED`,
`F0` or `F4`, and whose bytes two and three positions back have a high nibble
below `C`, `check_utf8_bytes` leaves the error bit clear exactly when the byte
lies in `A0..BF`, `80..9F`, `90..BF`, `80..8F` respectively; a byte below `C0`
is tested under range index 4, 5, 6, 7 respectively. -/
theorem C14_narrowed_second_byte (input : V128) (previous : processed_utf_bytes)
    (has_error : V128) (hin : ∀ j, input j < 256) (hc : CarryOf previous) (i : Fin 16)
    (h0 : has_error i = 0)
    (hL : _mm_alignr_epi8 input previous.input 15 i = 0xE0 ∨
      _mm_alignr_epi8 input previous.input 15 i = 0xED ∨
      _mm_alignr_epi8 input previous.input 15 i = 0xF0 ∨
      _mm_alignr_epi8 input previous.input 15 i = 0xF4)
    (h2 : _mm_alignr_epi8 input previous.input 14 i / 16 < 0xC)
    (h3 : _mm_alignr_epi8 input previous.input 13 i / 16 < 0xC) :
    ((check_utf8_bytes input previous has_error).2 i = 0 ↔
      narrowed_window (_mm_alignr_epi8 input previous.input 15 i) (input i)) ∧
    (input i < 0xC0 →
      (_mm_alignr_epi8 input previous.input 15 i = 0xE0 → chunk_range input previous i = 4) ∧
      (_mm_alignr_epi8 input previous.input 15 i = 0xED → chunk_range input previous i = 5) ∧
      (_mm_alignr_epi8 input previous.input 15 i = 0xF0 → chunk_range input previous i = 6) ∧
      (_mm_alignr_epi8 input previous.input 15 i = 0xF4 → chunk_range input previous i = 7)) := by
  have hz : first_len_of 0 = 0 := by decide
  have e := chunk_range_lane input previous hin hc.2 i
  rw [range_index_congr _ _ _ _ 0 0 ((first_len_of_eq_zero _ h2).trans hz.symm)
    ((first_len_of_eq_zero _ h3).trans hz.symm)] at e
  have tab := special_lane_table ⟨input i, hin i⟩
  rw [check_utf8_bytes_lane_clear, e]
  simp only [h0, true_and]
  unfold narrowed_window
  rcases hL with h | h | h | h <;> rw [h] at e ⊢
  · refine ⟨by rw [tab.1]; norm_num, fun hlt => ?_⟩
    refine ⟨fun _ => (tab.2.2.2.2 hlt).1, by norm_num, by norm_num, by norm_num⟩
  · refine ⟨by rw [tab.2.1]; norm_num, fun hlt => ?_⟩
    refine ⟨by norm_num, fun _ => (tab.2.2.2.2 hlt).2.1, by norm_num, by norm_num⟩
  · refine ⟨by rw [tab.2.2.1]; norm_num, fun hlt => ?_⟩
    refine ⟨by norm_num, by norm_num, fun _ => (tab.2.2.2.2 hlt).2.2.1, by norm_num⟩
  · refine ⟨by rw [tab.2.2.2.1]; norm_num, fun hlt => ?_⟩
    refine ⟨by norm_num, by norm_num, by norm_num, fun _ => (tab.2.2.2.2 hlt).2.2.2⟩

/-- Claim C14 in lane 0 of a chunk that starts with `A0`, the carried chunk
ending with `E0`: the lane stays clear. -/
theorem C14_narrowed_second_byte_witness :
    (check_utf8_bytes (_mm_loadu_si128 (0xA0 :: ascii_run 15) 0)
      (scan_chunks (ascii_run 15 ++ [0xE0]) 1).1 _mm_setzero_si128).2 0 = 0 :=
  ((C14_narrowed_second_byte (_mm_loadu_si128 (0xA0 :: ascii_run 15) 0)
    (scan_chunks (ascii_run 15 ++ [0xE0]) 1).1 _mm_setzero_si128 (by decide)
    ⟨by decide, by decide⟩ 0 rfl (Or.inl (by decide)) (by decide) (by decide)).1).2
    (Or.inl ⟨by decide, by decide, by decide⟩)

/-- Claim C15 as stated fails: the byte `C0` at the start of the buffer, under
the all-zero carry state, is assigned range index 8, whose signed minimum does
not exceed its maximum. -/
theorem C15_index_8_assigned_to_C0 :
    IllegalByte ((_mm_loadu_si128 [0xC0] 0) 0) ∧
    chunk_range (_mm_loadu_si128 [0xC0] 0)
      { input := _mm_setzero_si128, first_len := _mm_setzero_si128 } 0 = 8 ∧
    ¬ (toInt8 (_range_min_tbl.getD 8 0) > toInt8 (_range_max_tbl.getD 8 0)) :=
  ⟨Or.inl (by decide), by decide, by decide⟩

/-- Claim C15 as amended: for every chunk and every carry state, a byte equal to
`C0`, `C1` or in `F5..FF` fails the range test and sets its error lane; under a
carry state that the classifier produced its range index lies in 8..15, and in
9..15 when one of the three preceding bytes is a lead byte whose sequence
reaches it. -/
theorem C15_illegal_byte_index_and_rejection (input : V128) (previous : processed_utf_bytes)
    (has_error : V128) (i : Fin 16)
    (hill : input i = 0xC0 ∨ input i = 0xC1 ∨ (0xF5 ≤ input i ∧ input i ≤ 0xFF)) :
    range_flags (chunk_range input previous i) (input i) ∧
    (check_utf8_bytes input previous has_error).2 i ≠ 0 ∧
    ((∀ j, input j < 256) → CarryOf previous →
      8 ≤ chunk_range input previous i ∧ chunk_range input previous i ≤ 15 ∧
      ((1 ≤ first_len_of (_mm_alignr_epi8 input previous.input 15 i) ∨
        2 ≤ first_len_of (_mm_alignr_epi8 input previous.input 14 i) ∨
        3 ≤ first_len_of (_mm_alignr_epi8 input previous.input 13 i)) →
        9 ≤ chunk_range input previous i)) := by
  have hf := range_flags_of_illegal (chunk_range input previous i) (input i) hill
  refine ⟨hf, ?_, ?_⟩
  · intro h
    exact ((check_utf8_bytes_lane_clear input previous has_error i).1 h).2 hf
  · intro hin hc
    rw [chunk_range_lane input previous hin hc.2 i]
    exact range_index_lead _ _ _ _ (by rcases hill with h | h | h <;> omega) (hin i)

/-- Claim C15 as amended, at `C0` in lane 0 under the all-zero carry state. -/
theorem C15_illegal_byte_index_and_rejection_witness :
    (check_utf8_bytes (_mm_loadu_si128 [0xC0] 0)
      { input := _mm_setzero_si128, first_len := _mm_setzero_si128 } _mm_setzero_si128).2 0 ≠ 0 :=
  (C15_illegal_byte_index_and_rejection (_mm_loadu_si128 [0xC0] 0)
    { input := _mm_setzero_si128, first_len := _mm_setzero_si128 } _mm_setzero_si128 0
    (Or.inl (by decide))).2.1

/-- Claim C16 as stated fails. After a chunk that ends with the lead byte `C2`
the carried `first_len` is 1 in lane 15, within the stated threshold 3, yet the
fast path sets error lane 15; after a chunk that starts with `C2 80` the carried
`first_len` is 1 in lane 0, above the stated threshold 0, yet the fast path
leaves error lane 0 clear. -/
theorem C16_stated_thresholds_fail :
    (scan_chunks (ascii_run 15 ++ [0xC2]) 1).1.first_len 15 ≤ ascii_threshold_spec 15 ∧
    (check_utf8 (_mm_loadu_si128 (ascii_run 16) 0) (scan_chunks (ascii_run 15 ++ [0xC2]) 1).1
      _mm_setzero_si128).2 15 ≠ 0 ∧
    (scan_chunks ([0xC2, 0x80] ++ ascii_run 14) 1).1.first_len 0 > ascii_threshold_spec 0 ∧
    (check_utf8 (_mm_loadu_si128 (ascii_run 16) 0)
      (scan_chunks ([0xC2, 0x80] ++ ascii_run 14) 1).1 _mm_setzero_si128).2 0 = 0 := by
  decide

/-- Claim C16 as amended: on an all-ASCII chunk, for every carry state,
`check_utf8` sets an error lane exactly where the carried `first_len`, compared
as a signed byte, exceeds 9 at positions 0 to 12, 2 at position 13, 1 at
position 14 and 0 at position 15; the lanes already set stay set. -/
theorem C16_fast_path_thresholds (in_ : V128) (previous : processed_utf_bytes)
    (has_error : V128) (hascii : ∀ j, in_ j < 0x80) (i : Fin 16) :
    (check_utf8 in_ previous has_error).2 i ≠ 0 ↔
      has_error i ≠ 0 ∨
      toInt8 (previous.first_len i) >
        (if i.val ≤ 12 then 9 else if i.val = 13 then 2 else if i.val = 14 then 1 else 0 : Int) :=
  check_utf8_ascii_lane in_ previous has_error hascii i

/-- Claim C16 as amended, at lane 15 after a chunk that ends with `C2`. -/
theorem C16_fast_path_thresholds_witness :
    (check_utf8 (_mm_loadu_si128 (ascii_run 16) 0) (scan_chunks (ascii_run 15 ++ [0xC2]) 1).1
      _mm_setzero_si128).2 15 ≠ 0 :=
  (C16_fast_path_thresholds (_mm_loadu_si128 (ascii_run 16) 0)
    (scan_chunks (ascii_run 15 ++ [0xC2]) 1).1 _mm_setzero_si128 (by decide) 15).2
    (Or.inr (by decide))

/-- Claim C17 as stated fails: after a chunk that starts with `C2 80`, the fast
path on sixteen bytes `61` leaves `C2` in lane 0 of the carried input, not `61`,
and 1 in lane 0 of the carried `first_len`, not 0. -/
theorem C17_fast_path_keeps_old_carry :
    (∀ j, (_mm_loadu_si128 (ascii_run 16) 0) j < 0x80) ∧
    (check_utf8 (_mm_loadu_si128 (ascii_run 16) 0)
      (scan_chunks ([0xC2, 0x80] ++ ascii_run 14) 1).1 _mm_setzero_si128).1.input 0 = 0xC2 ∧
    (_mm_loadu_si128 (ascii_run 16) 0) 0 = 0x61 ∧
    (check_utf8 (_mm_loadu_si128 (ascii_run 16) 0)
      (scan_chunks ([0xC2, 0x80] ++ ascii_run 14) 1).1 _mm_setzero_si128).1.first_len 0 = 1 := by
  decide

/-- Claim C17 as amended: on an all-ASCII chunk `check_utf8` returns the carry
state it was given, unchanged; on a chunk of bytes that is not all ASCII it
returns the chunk and its length classification. The carry state is written on
the second path only. -/
theorem C17_carry_written_on_non_ascii_path_only (in_ : V128) (previous : processed_utf_bytes)
    (has_error : V128) (hin : ∀ j, in_ j < 256) :
    ((∀ j, in_ j < 0x80) → (check_utf8 in_ previous has_error).1 = previous) ∧
    ((¬ ∀ j, in_ j < 0x80) →
      (check_utf8 in_ previous has_error).1
        = { input := in_, first_len := fun j => first_len_of (in_ j) }) := by
  constructor
  · intro hascii
    rw [check_utf8_ascii in_ previous has_error hascii]
  · intro h
    rw [check_utf8_non_ascii in_ previous has_error hin h,
      check_utf8_bytes_carry in_ previous has_error hin]

/-- Claim C17 as amended, on sixteen bytes `61` after a chunk that starts with
`C2 80`. -/
theorem C17_carry_written_on_non_ascii_path_only_witness :
    (check_utf8 (_mm_loadu_si128 (ascii_run 16) 0)
      (scan_chunks ([0xC2, 0x80] ++ ascii_run 14) 1).1 _mm_setzero_si128).1
      = (scan_chunks ([0xC2, 0x80] ++ ascii_run 14) 1).1 :=
  (C17_carry_written_on_non_ascii_path_only (_mm_loadu_si128 (ascii_run 16) 0)
    (scan_chunks ([0xC2, 0x80] ++ ascii_run 14) 1).1 _mm_setzero_si128 (by decide)).1 (by decide)

/-- Claim C18: on an all-ASCII chunk, with a carry state as the classifier
leaves it and an all-zero error mask, the ASCII fast path of `check_utf8` sets
some error lane exactly when `check_utf8_bytes` sets some error lane, and both
do so exactly when the carried chunk ended inside a sequence. -/
theorem C18_fast_path_agrees_with_classifier (in_ : V128) (previous : processed_utf_bytes)
    (hascii : ∀ j, in_ j < 0x80) (hp : CarryOf previous) :
    ((∃ i, (check_utf8 in_ previous _mm_setzero_si128).2 i ≠ 0) ↔
      (∃ i, (check_utf8_bytes in_ previous _mm_setzero_si128).2 i ≠ 0)) ∧
    ((∃ i, (check_utf8 in_ previous _mm_setzero_si128).2 i ≠ 0) ↔ ends_mid_sequence previous) := by
  have h1 := check_utf8_ascii_error_iff in_ previous hascii hp
  have h2 := check_utf8_bytes_ascii_error_iff in_ previous hascii hp
  exact ⟨h1.trans h2.symm, h1⟩

/-- Claim C18 on sixteen bytes `61` after a chunk that ends with `C2`: both paths
raise an error. -/
theorem C18_fast_path_agrees_with_classifier_witness :
    CarryOf (scan_chunks (ascii_run 15 ++ [0xC2]) 1).1 ∧
    ends_mid_sequence (scan_chunks (ascii_run 15 ++ [0xC2]) 1).1 ∧
    ∃ i, (check_utf8_bytes (_mm_loadu_si128 (ascii_run 16) 0)
      (scan_chunks (ascii_run 15 ++ [0xC2]) 1).1 _mm_setzero_si128).2 i ≠ 0 :=
  ⟨⟨by decide, by decide⟩, by decide,
    (C18_fast_path_agrees_with_classifier (_mm_loadu_si128 (ascii_run 16) 0)
      (scan_chunks (ascii_run 15 ++ [0xC2]) 1).1 (by decide) ⟨by decide, by decide⟩).1.1
      ⟨15, by decide⟩⟩

/-- Claim C19 as stated fails: on sixteen ASCII bytes followed by `FF` the chunk
raises no error, the first malformed byte of the buffer is at position 17, and
with a scalar validator that reports positions the function returns 1, the
position of `FF` in the one-byte range it delegated. -/
theorem C19_position_is_relative_to_tail :
    (∀ i, (scan_chunks (ascii_run 16 ++ [0xFF]) ((ascii_run 16 ++ [0xFF]).length / 16)).2 i = 0) ∧
    first_invalid_pos (ascii_run 16 ++ [0xFF]) = 17 ∧
    utf8_range_asciipath utf8_naive_pos env_zero (ascii_run 16 ++ [0xFF]) = 1 := by
  decide

/-- Claim C19 as amended: with a scalar validator that reports the position of
the first invalid byte of the range it is given, a buffer that passes the
vectorized scan makes `utf8_range_asciipath` return that position within the
delegated range, a value of at most 18 to which no offset is added; when
the rewound start lies in the buffer and the bytes before it are well formed, the
position in the whole buffer is the returned value plus the offset
`16 * (len / 16) - lookahead` of that start. -/
theorem C19_returns_position_within_delegated_range (utf8_naive : List Nat → Int) (env : Env)
    (buf : List Nat) (hpos : ∀ l, utf8_naive l = (first_invalid_pos l : Int))
    (h : ∀ i, (scan_chunks buf (buf.length / 16)).2 i = 0) :
    utf8_range_asciipath utf8_naive env buf
      = (first_invalid_pos (byte_range env buf
          ((16 * (buf.length / 16) : Nat) -
            (lookahead env (scan_chunks buf (buf.length / 16)).1.input : Nat))
          (buf.length % 16 + lookahead env (scan_chunks buf (buf.length / 16)).1.input)) : Int) ∧
    utf8_range_asciipath utf8_naive env buf ≤ 18 ∧
    (lookahead env (scan_chunks buf (buf.length / 16)).1.input ≤ 16 * (buf.length / 16) →
      WellFormed (buf.take
        (16 * (buf.length / 16) - lookahead env (scan_chunks buf (buf.length / 16)).1.input)) →
      utf8_range_asciipath utf8_naive env buf ≠ 0 →
      (first_invalid_pos buf : Int)
        = ((16 * (buf.length / 16)
            - lookahead env (scan_chunks buf (buf.length / 16)).1.input : Nat) : Int)
          + utf8_range_asciipath utf8_naive env buf) := by
  have hres : utf8_range_asciipath utf8_naive env buf
      = (first_invalid_pos (byte_range env buf
          ((16 * (buf.length / 16) : Nat) -
            (lookahead env (scan_chunks buf (buf.length / 16)).1.input : Nat))
          (buf.length % 16 + lookahead env (scan_chunks buf (buf.length / 16)).1.input)) : Int) := by
    rw [utf8_range_asciipath_eq, if_neg, hpos]
    rintro ⟨i, hi⟩
    exact hi (h i)
  have hla := lookahead_le env (scan_chunks buf (buf.length / 16)).1.input
  refine ⟨hres, ?_, ?_⟩
  · rw [hres]
    have := first_invalid_pos_le (byte_range env buf
      ((16 * (buf.length / 16) : Nat) -
        (lookahead env (scan_chunks buf (buf.length / 16)).1.input : Nat))
      (buf.length % 16 + lookahead env (scan_chunks buf (buf.length / 16)).1.input))
    rw [byte_range_length] at this
    omega
  · intro hle hwf hne
    rw [hres] at hne ⊢
    revert hne hwf
    generalize lookahead env (scan_chunks buf (buf.length / 16)).1.input = la at hle hla
    intro hwf hne
    have e : ((16 * (buf.length / 16) : Nat) : Int) - (la : Int)
        = ((16 * (buf.length / 16) - la : Nat) : Int) := by omega
    rw [e] at hne ⊢
    rw [byte_range_eq_drop env buf _ _ (by omega)] at hne ⊢
    have hsplit := first_invalid_pos_append _ (buf.drop (16 * (buf.length / 16) - la)) hwf
    rw [List.take_append_drop, List.length_take] at hsplit
    rw [hsplit]
    have hne2 : first_invalid_pos (buf.drop (16 * (buf.length / 16) - la)) ≠ 0 := by
      intro hz
      apply hne
      rw [hz]
      rfl
    unfold shift_pos
    rw [if_neg hne2]
    have hmin : min (16 * (buf.length / 16) - la) buf.length = 16 * (buf.length / 16) - la := by
      omega
    rw [hmin]
    push_cast
    omega

/-- Claim C19 as amended, on sixteen ASCII bytes followed by `FF`: the function
returns 1 and the position in the whole buffer is 16 + 1. -/
theorem C19_returns_position_within_delegated_range_witness :
    utf8_range_asciipath utf8_naive_pos env_zero (ascii_run 16 ++ [0xFF]) ≤ 18 ∧
    (first_invalid_pos (ascii_run 16 ++ [0xFF]) : Int)
      = ((16 * ((ascii_run 16 ++ [0xFF]).length / 16)
          - lookahead env_zero
              (scan_chunks (ascii_run 16 ++ [0xFF])
                ((ascii_run 16 ++ [0xFF]).length / 16)).1.input : Nat) : Int)
        + utf8_range_asciipath utf8_naive_pos env_zero (ascii_run 16 ++ [0xFF]) :=
  ⟨(C19_returns_position_within_delegated_range utf8_naive_pos env_zero (ascii_run 16 ++ [0xFF])
      (fun _ => rfl) (by decide)).2.1,
    (C19_returns_position_within_delegated_range utf8_naive_pos env_zero (ascii_run 16 ++ [0xFF])
      (fun _ => rfl) (by decide)).2.2 (by decide) ((wellFormedB_iff _).1 (by decide))
      (by decide)⟩

/-- Claim C11: for a buffer of bytes whose length is `16 * k`, folding
`check_utf8_bytes` over its `k` chunks from the all-zero carry state and the
all-zero error mask leaves every lane of the mask zero exactly when the buffer
can be extended to a well-formed UTF-8 byte string, that is when it is the
beginning of one. -/
theorem C11_scan_clear_iff_beginning_of_well_formed (buf : List Nat) (k : Nat)
    (hlen : buf.length = 16 * k) (hb : Bytes buf) :
    (∀ i, (scan_chunks buf k).2 i = 0) ↔ ∃ e, WellFormed (buf ++ e) :=
  scan_clear_iff_extends buf hb k hlen

/-- Claim C11 on fifteen ASCII bytes followed by the lead byte `C2`: the scan
raises no error and the continuation byte `80` completes the buffer. -/
theorem C11_scan_clear_iff_beginning_of_well_formed_witness :
    (∀ i, (scan_chunks (ascii_run 15 ++ [0xC2]) 1).2 i = 0) ∧
    WellFormed ((ascii_run 15 ++ [0xC2]) ++ [0x80]) :=
  ⟨(C11_scan_clear_iff_beginning_of_well_formed (ascii_run 15 ++ [0xC2]) 1 (by decide)
      (by unfold Bytes; decide)).2 ⟨[0x80], (wellFormedB_iff _).1 (by decide)⟩,
    (wellFormedB_iff _).1 (by decide)⟩

/-- Claim C13: on a well-formed UTF-8 buffer, in every full 16-byte chunk that
`check_utf8_bytes` processes from the all-zero carry state on, the range index
computed for every byte is at most 8. -/
theorem C13_range_index_at_most_8 (buf : List Nat) (h : WellFormed buf) (k : Nat)
    (hk : 16 * (k + 1) ≤ buf.length) (i : Fin 16) :
    chunk_range (_mm_loadu_si128 buf (16 * k)) (scan_chunks buf k).1 i ≤ 8 :=
  range_index_le_8_of_wellFormed buf h k hk i

/-- Claim C13 on five copies of `F0 9F 98 80`: every lane of the chunk. -/
theorem C13_range_index_at_most_8_witness :
    WellFormed five_smileys ∧
    ∀ i, chunk_range (_mm_loadu_si128 five_smileys (16 * 0)) (scan_chunks five_smileys 0).1 i ≤ 8 :=
  ⟨(wellFormedB_iff _).1 (by decide),
    fun i => C13_range_index_at_most_8 five_smileys ((wellFormedB_iff _).1 (by decide)) 0
      (by decide) i⟩

end Utf8
